import Mathlib

/-!
Verification of the hobo durable workflow engine (src/src/engine.ts and
src/src/wfkit.ts) against its natural-language specification.

Shallow embedding conventions:
* ISO-8601 timestamps are modeled as natural numbers (seconds). The source
  functions iso/parseISO/addSeconds form an order-isomorphism between Date
  values and the ISO strings the engine stores, and lexicographic comparison
  of the produced fixed-format UTC strings agrees with time order, so Nat
  with its standard order is a faithful carrier.
* JSON values (ctx, payloads, results) are the inductive type Value below;
  the JavaScript undefined is modeled as an absent Option entry where the
  source distinguishes presence, and as Value.null where a defined-but-null
  placeholder flows into data.
* JavaScript objects used as dictionaries (s.tasks, history indexes) are
  modeled as association lists in insertion order; key assignment replaces
  in place (assocSet), matching object semantics including iteration order.
* The store CAS retry loop re-executes the same deterministic in-memory
  transition from the freshly loaded state, so each engine operation is
  modeled as the pure transition it persists; results carry a wrote flag
  that is true exactly on the code paths that reach store.put.
* The engine is modeled with no external task store and no event store
  (the optional constructor dependencies absent, the default configuration),
  so logEvent is exactly a history append.
-/

namespace Hobo

/-- JSON value as manipulated by the engine (ctx, payloads, results). -/
inductive Value where
  | null : Value
  | bool : Bool → Value
  | num : Int → Value
  | str : String → Value
  | arr : List Value → Value
  | obj : List (String × Value) → Value

/-- Field lookup on a JSON object; none for absent fields and non-objects. -/
def Value.lookup : Value → String → Option Value
  | .obj fs, k => fs.lookup k
  | _, _ => none

/-- Truthiness of a JSON value, as JavaScript coerces it in conditions. -/
def Value.truthy : Value → Bool
  | .null => false
  | .bool b => b
  | .num n => n != 0
  | .str s => s != ""
  | .arr _ => true
  | .obj _ => true

mutual

/-- Rendering of a JSON value, modeling JSON.stringify as used to build the
opaque code payload of exec tasks (string escaping is not modeled; none of
the verified properties inspect the payload text). -/
def Value.render : Value → String
  | .null => "null"
  | .bool b => if b then "true" else "false"
  | .num n => toString n
  | .str s => "\"" ++ s ++ "\""
  | .arr xs => "[" ++ Value.renderElems xs ++ "]"
  | .obj fs => "\x7b" ++ Value.renderFields fs ++ "\x7d"

/-- Comma-separated rendering of array elements. -/
def Value.renderElems : List Value → String
  | [] => ""
  | [v] => Value.render v
  | v :: vs => Value.render v ++ "," ++ Value.renderElems vs

/-- Comma-separated rendering of object fields. -/
def Value.renderFields : List (String × Value) → String
  | [] => ""
  | [(k, v)] => "\"" ++ k ++ "\":" ++ Value.render v
  | (k, v) :: fs => "\"" ++ k ++ "\":" ++ Value.render v ++ "," ++ Value.renderFields fs

end

mutual

/-- String coercion of a JSON value, as the JavaScript String() builtin
performs it in the error-normalization fallback paths. -/
def Value.jsToString : Value → String
  | .null => "null"
  | .bool b => if b then "true" else "false"
  | .num n => toString n
  | .str s => s
  | .arr xs => Value.jsToStringElems xs
  | .obj _ => "[object Object]"

/-- Array join with comma; null elements render empty inside a join. -/
def Value.jsToStringElems : List Value → String
  | [] => ""
  | [.null] => ""
  | [v] => Value.jsToString v
  | .null :: vs => "," ++ Value.jsToStringElems vs
  | v :: vs => Value.jsToString v ++ "," ++ Value.jsToStringElems vs

end

/-- Assignment m[k] = v on an object modeled as an association list:
replaces the existing entry in place, otherwise appends (JS insertion
order). -/
def assocSet (m : List (String × α)) (k : String) (v : α) : List (String × α) :=
  if m.any (fun p => p.1 = k) then m.map (fun p => if p.1 = k then (k, v) else p)
  else m ++ [(k, v)]

/-- Append v to the list stored at key k, creating the entry if absent
(the pattern (m[k] ??= []).push(v)). -/
def assocAppend (m : List (String × List α)) (k : String) (v : α) : List (String × List α) :=
  if m.any (fun p => p.1 = k) then m.map (fun p => if p.1 = k then (k, p.2 ++ [v]) else p)
  else m ++ [(k, [v])]

/-- Prefix test on strings, character-based (String.prototype.startsWith);
implemented over the character list so that concrete evaluation reduces. -/
def strStartsWith (s pre : String) : Bool :=
  pre.data.isPrefixOf s.data

/-- Drop of the first n characters (String.prototype.substring(n)). -/
def strDrop (s : String) (n : Nat) : String :=
  String.mk (s.data.drop n)

/-- Character-list splitter used by splitDot. -/
def splitDotAux : List Char → List Char → List String
  | [], acc => [String.mk acc.reverse]
  | c :: cs, acc =>
    if c = '.' then String.mk acc.reverse :: splitDotAux cs []
    else splitDotAux cs (c :: acc)

/-- Split on the dot character (String.prototype.split with separator "."),
never empty. -/
def splitDot (s : String) : List String :=
  splitDotAux s.data []

/-- Dot-path setter setPath of engine.ts (identical logic to setInternal in
wfkit.ts): walks the split path, creating an empty object for each absent or
null intermediate (p[k] ??= \x7b\x7d), and assigns at the leaf. Descending
into a primitive throws a strict-mode TypeError in the source; that is
modeled as none (paths through arrays, which JavaScript would accept as
objects, are also modeled as none; no verified property exercises them). -/
def setPathParts : Value → List String → Value → Option Value
  | .obj fs, [k], v => some (.obj (assocSet fs k v))
  | .obj fs, k :: k2 :: rest, v =>
    let child := match fs.lookup k with
      | some .null => Value.obj []
      | some c => c
      | none => Value.obj []
    match setPathParts child (k2 :: rest) v with
    | some c' => some (.obj (assocSet fs k c'))
    | none => none
  | _, _, _ => none

/-- Dot-path setter on a full key string, splitting on the dot. -/
def setPath (v : Value) (path : String) (x : Value) : Option Value :=
  setPathParts v (splitDot path) x

/-! Error envelope (errors.ts): the HoboErrorObject zod schema. -/

/-- Closed set of error kinds of the HoboErrorObject discriminated union. -/
inductive ErrType where
  | retryable
  | non_retryable
  | timeout
  | conflict
deriving DecidableEq, Repr

/-- Structured error envelope: tag, message, optional cause. -/
structure HoboErrObj where
  type : ErrType
  message : String
  cause : Option String
deriving DecidableEq, Repr

/-- Decoding of the discriminant string of HoboErrorObject. -/
def parseErrType : String → Option ErrType
  | "retryable" => some .retryable
  | "non_retryable" => some .non_retryable
  | "timeout" => some .timeout
  | "conflict" => some .conflict
  | _ => none

/-- HoboErrorObject.parse on a JSON value: an object with a valid type tag,
a string message, and an absent-or-string cause parses; anything else throws
(none). Unknown extra fields are stripped by zod and ignored here. -/
def parseHoboErr (v : Value) : Option HoboErrObj :=
  match v with
  | .obj _ =>
    match v.lookup "type", v.lookup "message" with
    | some (.str ty), some (.str msg) =>
      match parseErrType ty with
      | some t =>
        match v.lookup "cause" with
        | none => some ⟨t, msg, none⟩
        | some (.str c) => some ⟨t, msg, some c⟩
        | some _ => none
      | none => none
    | _, _ => none
  | _ => none

/-- Fallback message String((input)?.message ?? input) used when parsing
fails in completeActivity and fail_workflow handling. -/
def errFallbackMsg (v : Value) : String :=
  match v.lookup "message" with
  | some .null => v.jsToString
  | some m => m.jsToString
  | none => v.jsToString

/-- Error normalization of completeActivity (engine.ts lines 368-383): try
HoboErrorObject.parse, fall back to a non_retryable envelope with the String
coercion of the input. (HoboError class instances do not reach this model:
the runner passes their toJSON, which parses.) -/
def normalizeErr (v : Value) : HoboErrObj :=
  match parseHoboErr v with
  | some e => e
  | none => ⟨.non_retryable, errFallbackMsg v, none⟩

/-! Engine data model (engine.ts). -/

/-- Workflow status. -/
inductive WFStatus where
  | running
  | completed
  | failed
  | cancelled
deriving DecidableEq, Repr

/-- Task status. -/
inductive TaskStatus where
  | pending
  | leased
  | completed
  | failed
deriving DecidableEq, Repr

/-- Lease on an exec task. -/
structure Lease where
  owner : String
  expires_at : Nat
  token : Nat
deriving DecidableEq, Repr

/-- Sleep (timer) task. -/
structure SleepTask where
  id : String
  status : TaskStatus
  run_after : Nat
  result : Option Value := none
  error : Option HoboErrObj := none
  label : Option String := none

/-- Exec (activity) task; optional fields model the optional properties of
the ExecTask interface. -/
structure ExecTask where
  id : String
  name : Option String := none
  code : String
  status : TaskStatus
  run_after : Nat
  result : Option Value := none
  error : Option HoboErrObj := none
  lease : Option Lease := none
  tries : Option Nat := none
  max_tries : Option Nat := none
  idem_key : Option String := none
  fence : Option Nat := none
  retry_delays : Option (List Nat) := none
  kind : Option String := none
  createdAt : Option Nat := none
  updatedAt : Option Nat := none
  version : Option String := none

/-- Task: tagged union over sleep and exec. -/
inductive Task where
  | sleep (t : SleepTask)
  | exec (t : ExecTask)

/-- Identifier of a task. -/
def Task.id : Task → String
  | .sleep t => t.id
  | .exec t => t.id

/-- Status of a task. -/
def Task.status : Task → TaskStatus
  | .sleep t => t.status
  | .exec t => t.status

/-- Due time of a task. -/
def Task.run_after : Task → Nat
  | .sleep t => t.run_after
  | .exec t => t.run_after

/-- Lease of a task; sleep tasks have none. -/
def Task.lease : Task → Option Lease
  | .sleep _ => none
  | .exec t => t.lease

/-- History event (the WFEvent discriminated union). -/
inductive WFEvent where
  | wf_created (ts : Nat)
  | wf_completed (ts : Nat)
  | wf_failed (ts : Nat) (reason : Option HoboErrObj)
  | timer_scheduled (ts : Nat) (task_id : String) (run_after : Nat) (label : Option String)
  | timer_fired (ts : Nat) (task_id : String) (label : Option String)
  | activity_scheduled (ts : Nat) (task_id : String) (name : String)
  | activity_completed (ts : Nat) (task_id : String) (result : Option Value)
  | activity_failed (ts : Nat) (task_id : String) (error : HoboErrObj)
  | activity_retry (ts : Nat) (task_id : String) (after_seconds : Nat)
  | ctx_set (ts : Nat) (key : String)
  | signal (ts : Nat) (name : String) (payload : Value)

/-- Workflow state: the single persisted blob. -/
structure WFState where
  id : String
  rev : Nat
  status : WFStatus
  created_at : Nat
  updated_at : Nat
  ctx : Value
  history : List WFEvent
  tasks : List Task
  need_decide : Bool
  next_wake : Option Nat
  seq : Nat
  decider : String
  signals : Option (List (Nat × String × Value)) := none
  last_seq : Option Nat := none

/-- Command emitted by a decider. -/
inductive Command where
  | sleep (seconds : Option Nat) (until_ : Option Nat) (label : Option String)
  | exec (name : Option String) (code : String) (run_after : Option Nat)
      (idem_key : Option String) (max_tries : Option Nat) (retry_delays : Option (List Nat))
  | set (key : String) (value : Value)
  | complete_workflow
  | fail_workflow (reason : Option Value)

/-- Decider: pure function from (ctx, history) to commands; none models a
thrown exception (propagated out of the tick without a store write). -/
def DeciderFn : Type := Value → List WFEvent → Option (List Command)

/-! Engine operations (engine.ts, class WorkflowEngine). -/

/-- Key lookup s.tasks[taskId] on the task map. -/
def findTask (tasks : List Task) (taskId : String) : Option Task :=
  tasks.find? (fun t => Task.id t == taskId)

/-- In-place mutation of the task stored under taskId (the source mutates
the object held in the map; keys are unique, order preserved). -/
def updateTask (tasks : List Task) (taskId : String) (t' : Task) : List Task :=
  tasks.map (fun t => if Task.id t == taskId then t' else t)

/-- Task id format of nextTaskId: the seq value zero-padded to width 6 with
a leading t. -/
def padTaskId (n : Nat) : String :=
  let s := toString n
  "t" ++ String.mk (List.replicate (6 - s.length) '0') ++ s

/-- nextTaskId: increments seq and mints the deterministic id. -/
def nextTaskId (s : WFState) : WFState × String :=
  ({ s with seq := s.seq + 1 }, padTaskId (s.seq + 1))

/-- JSON code payload of an exec command produced by the interpreter:
JSON.stringify of an action/input pair. -/
def execCode (action : String) (input : Value) : String :=
  Value.render (.obj [("action", .str action), ("input", input)])

/-- The ExecTask value constructed by scheduleExec (engine.ts lines
608-628), including the external-store-friendly fields. -/
def mkExecTask (id : String) (tNow : Nat) (name : Option String) (code : String)
    (run_after : Option Nat) (idem_key : Option String) (max_tries : Option Nat)
    (retry_delays : Option (List Nat)) : ExecTask :=
  { id := id
    name := some (name.getD "exec")
    code := code
    status := .pending
    run_after := run_after.getD tNow
    lease := none
    tries := some 0
    max_tries := some (max_tries.getD 3)
    idem_key := idem_key
    fence := some 0
    retry_delays := retry_delays
    kind := some "activity"
    createdAt := some tNow
    updatedAt := some tNow
    version := some "0" }

/-- scheduleSleep: validates that exactly one of seconds/until is present
(otherwise throws, modeled as none), mints a task id, stores the pending
sleep task in s.tasks, and appends TIMER_SCHEDULED. -/
def scheduleSleep (s : WFState) (tNow : Nat) (seconds : Option Nat)
    (until_ : Option Nat) (label : Option String) : Option WFState :=
  match seconds, until_ with
  | none, none => none
  | some _, some _ => none
  | _, _ =>
    let runAfter := match until_ with
      | some u => u
      | none => tNow + seconds.getD 0
    let (s1, id) := nextTaskId s
    let task : SleepTask :=
      { id := id, status := .pending, run_after := runAfter, label := label }
    some { s1 with
      tasks := s1.tasks ++ [Task.sleep task]
      history := s1.history ++ [WFEvent.timer_scheduled tNow id runAfter label] }

/-- scheduleExec (engine.ts lines 597-638): mints a task id, constructs the
pending ExecTask, and appends ACTIVITY_SCHEDULED. Note that unlike
scheduleSleep the source never assigns s.tasks[id] = task, so the built task
is dropped (no task store is configured); the history event is the only
trace of it. -/
def scheduleExec (s : WFState) (tNow : Nat) (name : Option String) (code : String)
    (run_after : Option Nat) (idem_key : Option String) (max_tries : Option Nat)
    (retry_delays : Option (List Nat)) : WFState :=
  let (s1, id) := nextTaskId s
  let task := mkExecTask id tNow name code run_after idem_key max_tries retry_delays
  { s1 with
    history := s1.history ++
      [WFEvent.activity_scheduled tNow id (task.name.getD "exec")] }

/-- Application of one decider command (the switch in applyCommands,
engine.ts lines 491-558); none models a thrown exception. -/
def applyCommand (s : WFState) (tNow : Nat) : Command → Option WFState
  | .sleep seconds until_ label => scheduleSleep s tNow seconds until_ label
  | .exec name code run_after idem_key max_tries retry_delays =>
    some (scheduleExec s tNow name code run_after idem_key max_tries retry_delays)
  | .set key value =>
    match setPath s.ctx key value with
    | some ctx' =>
      some { s with ctx := ctx', history := s.history ++ [WFEvent.ctx_set tNow key] }
    | none => none
  | .complete_workflow =>
    some { s with status := .completed, history := s.history ++ [WFEvent.wf_completed tNow] }
  | .fail_workflow reason =>
    let err : HoboErrObj := match reason with
      | some v => normalizeErr v
      | none => ⟨.non_retryable, "workflow failed", none⟩
    some { s with status := .failed,
                  history := s.history ++ [WFEvent.wf_failed tNow (some err)] }

/-- applyCommands: commands applied in order. -/
def applyCommands (s : WFState) (cmds : List Command) (tNow : Nat) : Option WFState :=
  cmds.foldlM (fun st c => applyCommand st tNow c) s

/-- Phase 1 of tick: fire due timers. Every pending sleep task with
run_after at or before tNow is marked completed, TIMER_FIRED is appended
(in task iteration order) and need_decide is set. -/
def fireTimers (s : WFState) (tNow : Nat) : WFState :=
  let r := s.tasks.foldl
    (fun (acc : List Task × List WFEvent × Bool) t =>
      match t with
      | .sleep st =>
        if st.status = .pending ∧ st.run_after ≤ tNow then
          (acc.1 ++ [Task.sleep { st with status := .completed }],
           acc.2.1 ++ [WFEvent.timer_fired tNow st.id st.label], true)
        else (acc.1 ++ [t], acc.2.1, acc.2.2)
      | .exec _ => (acc.1 ++ [t], acc.2.1, acc.2.2))
    ([], [], false)
  { s with tasks := r.1, history := s.history ++ r.2.1,
           need_decide := s.need_decide || r.2.2 }

/-- Accumulator step of computeNextWake: keep the earlier time. -/
def minOpt (o : Option Nat) (n : Nat) : Option Nat :=
  match o with
  | none => some n
  | some m => some (if n < m then n else m)

/-- computeNextWake (engine.ts lines 640-652): minimum over run_after of
pending tasks and expires_at of leased tasks that carry a lease; null when
no such task exists. -/
def computeNextWake (tasks : List Task) : Option Nat :=
  tasks.foldl
    (fun next t =>
      match t with
      | .sleep st =>
        if st.status = .pending then minOpt next st.run_after else next
      | .exec et =>
        if et.status = .pending then minOpt next et.run_after
        else if et.status = .leased then
          match et.lease with
          | some l => minOpt next l.expires_at
          | none => next
        else next)
    none

/-- tick (engine.ts lines 222-268): fire due timers, invoke the decider if
running and need_decide, apply its commands, recompute next_wake, stamp
updated_at. Returns the persisted state together with the reported
next_wake and status; none models a thrown exception (invalid sleep
command, set through a primitive, or decider throw). -/
def tick (d : DeciderFn) (s : WFState) (tNow : Nat) :
    Option (WFState × Option Nat × WFStatus) :=
  let s1 := fireTimers s tNow
  let s2opt : Option WFState :=
    if s1.status = .running ∧ s1.need_decide then
      match d s1.ctx s1.history with
      | some cmds => (applyCommands s1 cmds tNow).map (fun s2 => { s2 with need_decide := false })
      | none => none
    else some s1
  s2opt.map (fun s2 =>
    let s3 := { s2 with next_wake := computeNextWake s2.tasks, updated_at := tNow }
    (s3, s3.next_wake, s3.status))

/-- Scan of reserveReadyActivities over the id-sorted task list, carrying
the count of tasks leased so far. Terminal exec tasks are skipped; a leased
task with an unexpired lease is skipped; a due task is leased with an
incremented fence, and the scan stops once the count reaches maxN — the
bound is checked only after the push, so the first leased task always goes
through even when maxN = 0. -/
def reserveScan (workerId : String) (maxN leaseSecs tNow : Nat) :
    List Task → Nat → List ExecTask
  | [], _ => []
  | .sleep _ :: rest, n => reserveScan workerId maxN leaseSecs tNow rest n
  | .exec t :: rest, n =>
    if t.status = .completed ∨ t.status = .failed then
      reserveScan workerId maxN leaseSecs tNow rest n
    else if t.status = .leased ∧
        (match t.lease with | some l => decide (tNow < l.expires_at) | none => false) = true then
      reserveScan workerId maxN leaseSecs tNow rest n
    else if t.run_after ≤ tNow then
      let nextToken := t.fence.getD 0 + 1
      let t' := { t with status := .leased, fence := some nextToken,
                         lease := some ⟨workerId, tNow + leaseSecs, nextToken⟩ }
      if n + 1 ≥ maxN then [t']
      else t' :: reserveScan workerId maxN leaseSecs tNow rest (n + 1)
    else reserveScan workerId maxN leaseSecs tNow rest n

/-- Stable insertion of a task into an id-sorted list, after any task with
an equal or smaller id. -/
def insertById (t : Task) : List Task → List Task
  | [] => [t]
  | u :: us => if Task.id u ≤ Task.id t then u :: insertById t us else t :: u :: us

/-- Tasks sorted ascending by id (the sort by localeCompare on the
fixed-format ids is lexicographic order; Array.prototype.sort is stable and
this stable insertion sort computes the same list). -/
def sortTasks (ts : List Task) : List Task :=
  ts.foldl (fun acc t => insertById t acc) []

/-- Writing the new leases back into the task map (the source mutates the
shared task objects in place). -/
def applyLeases (tasks : List Task) (ls : List ExecTask) : List Task :=
  tasks.map (fun t =>
    match ls.find? (fun e => e.id == Task.id t) with
    | some e => Task.exec e
    | none => t)

/-- reserveReadyActivities (engine.ts lines 270-322): scans exec tasks in
ascending id order, leases the due ones and persists; an empty scan returns
before the store write (wrote = false) with the state untouched. -/
def reserveReadyActivities (s : WFState) (workerId : String)
    (maxN leaseSecs tNow : Nat) : WFState × List ExecTask × Bool :=
  let newLeased := reserveScan workerId maxN leaseSecs tNow (sortTasks s.tasks) 0
  if newLeased.isEmpty then (s, [], false)
  else ({ s with tasks := applyLeases s.tasks newLeased }, newLeased, true)

/-- Result of completeActivity: reported workflow status, the already flag
of the stale paths, and whether the code path reached store.put. -/
structure CompleteResult where
  status : WFStatus
  already : Bool
  wrote : Bool
deriving DecidableEq, Repr

/-- completeActivity (engine.ts lines 328-419). Missing or terminal task,
task not leased, missing lease, or mismatched supplied token: return already
with no state change (the return happens before any mutation or write). A
sleep task found under the id is cast to ExecTask by the source; having no
lease it also takes the stale path. Otherwise on success the task completes
with the result recorded; on failure tries is incremented, the error is
normalized, and the task either fails the workflow (tries reached max_tries,
default 3) or is re-queued pending with run_after = tNow + backoff, where
backoff is retry_delays[tries-1] if present, else min(300, 2^tries). -/
def completeActivity (s : WFState) (taskId : String) (success : Bool)
    (resultOrError : Value) (leaseToken : Option Nat) (tNow : Nat) :
    WFState × CompleteResult :=
  match findTask s.tasks taskId with
  | none => (s, ⟨s.status, true, false⟩)
  | some tk =>
    if Task.status tk = .completed ∨ Task.status tk = .failed then
      (s, ⟨s.status, true, false⟩)
    else
      match tk with
      | .sleep _ => (s, ⟨s.status, true, false⟩)
      | .exec t =>
        if t.status ≠ .leased then (s, ⟨s.status, true, false⟩)
        else
          match t.lease with
          | none => (s, ⟨s.status, true, false⟩)
          | some l =>
            if (match leaseToken with
                | some tok => decide (l.token ≠ tok)
                | none => false) = true then
              (s, ⟨s.status, true, false⟩)
            else if success then
              let t' := { t with status := .completed, result := some resultOrError }
              let s' := { s with
                tasks := updateTask s.tasks taskId (.exec t')
                history := s.history ++
                  [WFEvent.activity_completed tNow t.id (some resultOrError)]
                need_decide := true
                updated_at := tNow }
              (s', ⟨s'.status, false, true⟩)
            else
              let tries' := t.tries.getD 0 + 1
              let err := normalizeErr resultOrError
              if tries' ≥ t.max_tries.getD 3 then
                let t' := { t with tries := some tries', error := some err,
                                   status := .failed }
                let s' := { s with
                  status := .failed
                  tasks := updateTask s.tasks taskId (.exec t')
                  history := s.history ++ [WFEvent.activity_failed tNow t.id err]
                  need_decide := true
                  updated_at := tNow }
                (s', ⟨.failed, false, true⟩)
              else
                let backoff := (t.retry_delays.bind fun ds => ds[tries' - 1]?).getD
                  (min 300 (2 ^ tries'))
                let t' := { t with tries := some tries', error := some err,
                                   status := .pending, lease := none, run_after := tNow + backoff }
                let s' := { s with
                  tasks := updateTask s.tasks taskId (.exec t')
                  history := s.history ++ [WFEvent.activity_retry tNow t.id backoff]
                  need_decide := true
                  updated_at := tNow }
                (s', ⟨s'.status, false, true⟩)

/-- Errors surfaced by extendLease. -/
inductive ExtendError where
  | notLeased
  | notYourLease
  | leaseExpired
deriving DecidableEq, Repr

/-- extendLease (engine.ts lines 422-451): throws when the task is missing,
not an exec task, not leased, or has no lease; when owner or token mismatch;
or when the current expiry is strictly before tNow. Otherwise advances
expires_at by extraSeconds from the current expiry and changes nothing
else. -/
def extendLease (s : WFState) (taskId owner : String) (token : Nat)
    (extraSeconds tNow : Nat) : Except ExtendError WFState :=
  match findTask s.tasks taskId with
  | none => .error .notLeased
  | some (.sleep _) => .error .notLeased
  | some (.exec t) =>
    if t.status ≠ .leased then .error .notLeased
    else
      match t.lease with
      | none => .error .notLeased
      | some l =>
        if l.owner ≠ owner ∨ l.token ≠ token then .error .notYourLease
        else if l.expires_at < tNow then .error .leaseExpired
        else
          let l' : Lease := { l with expires_at := l.expires_at + extraSeconds }
          .ok { s with tasks := updateTask s.tasks taskId (.exec { t with lease := some l' }) }

/-! Generator DSL interpreter (wfkit.ts). -/

/-- Per-exec options of the DSL. -/
structure ExecOpts where
  maxTries : Option Nat := none
  retryDelays : Option (List Nat) := none
  idemKey : Option String := none
  runAfter : Option Nat := none
deriving Repr

/-- Empty options, the spread fallback eff.opts ?? \x7b\x7d. -/
def emptyOpts : ExecOpts := ⟨none, none, none, none⟩

/-- Object spread of options over defaults: a present field of o wins. -/
def ExecOpts.merge (defaults o : ExecOpts) : ExecOpts :=
  ⟨o.maxTries <|> defaults.maxTries, o.retryDelays <|> defaults.retryDelays,
   o.idemKey <|> defaults.idemKey, o.runAfter <|> defaults.runAfter⟩

/-- Decoding of a ctx-resident execDefaults object into options; fields of
the expected shape are taken (well-typed defaults assumed: the source passes
whatever is stored straight through untyped). -/
def decodeOpts (v : Value) : ExecOpts :=
  { maxTries := match v.lookup "maxTries" with
      | some (.num n) => some n.toNat
      | _ => none
    retryDelays := match v.lookup "retryDelays" with
      | some (.arr xs) =>
        some (xs.filterMap fun x => match x with | .num n => some n.toNat | _ => none)
      | _ => none
    idemKey := match v.lookup "idemKey" with
      | some (.str s) => some s
      | _ => none
    runAfter := match v.lookup "runAfter" with
      | some (.num n) => some n.toNat
      | _ => none }

/-- Lookup of ctx?.params?.execDefaults ?? \x7b\x7d, read from the current
local ctx mirror when an exec command is built. -/
def execDefaultsOf (ctx : Value) : ExecOpts :=
  match ctx.lookup "params" with
  | some p =>
    match p.lookup "execDefaults" with
    | some d => decodeOpts d
    | none => emptyOpts
  | none => emptyOpts

/-- Effect yielded by a workflow generator. -/
inductive Effect where
  | exec (name : String) (input : Value) (opts : Option ExecOpts)
  | sleep (seconds : Option Nat) (until_ : Option Nat)
  | signal (name : String)
  | all (children : List Effect)
  | race (options : List (String × Effect))
  | set (key : String) (value : Value)
  | complete (value : Option Value)
  | fail (reason : Option String)

/-- Generator coroutine, embedded as a strictly positive tree: ret is a
normal return of the generator body, yld an effect yield whose continuation
receives the value fed back by the interpreter. -/
inductive GenM where
  | ret : GenM
  | yld (eff : Effect) (k : Value → GenM) : GenM

/-- History index built by one scan of history (indexHistory in wfkit.ts). -/
structure HistIndex where
  execScheduledById : List (String × String)
  execCompletedByTask : List (String × Option Value)
  timerScheduledById : List (String × String)
  timerFiredByTask : List String
  signalsByName : List (String × List (Nat × Value))
  raceOrder : List String

/-- indexHistory: one pass over history collecting effect-id correlations,
completion results, signals by name in arrival order, and the completion
order used by race. -/
def indexHistory (history : List WFEvent) : HistIndex :=
  history.foldl
    (fun h e =>
      match e with
      | .activity_scheduled _ taskId name =>
        if strStartsWith name "E:" then
          { h with execScheduledById := assocSet h.execScheduledById (strDrop name 2) taskId }
        else h
      | .activity_completed _ taskId result =>
        { h with execCompletedByTask := assocSet h.execCompletedByTask taskId result,
                 raceOrder := h.raceOrder ++ [taskId] }
      | .timer_scheduled _ taskId _ label =>
        match label with
        | some l =>
          if strStartsWith l "S:" then
            { h with timerScheduledById := assocSet h.timerScheduledById (strDrop l 2) taskId }
          else h
        | none => h
      | .timer_fired _ taskId _ =>
        { h with timerFiredByTask := h.timerFiredByTask ++ [taskId],
                 raceOrder := h.raceOrder ++ [taskId] }
      | .signal ts name payload =>
        { h with signalsByName := assocAppend h.signalsByName name (ts, payload) }
      | _ => h)
    ⟨[], [], [], [], [], []⟩

/-- Status of an effect read from the history index (slotOf in wfkit.ts).
A completed exec whose recorded result is undefined is reported waiting
(the done check is result !== undefined). -/
inductive Slot where
  | pending
  | waiting (taskId : String)
  | done (value : Option Value)
  | na

/-- slotOf: correlate an effect id with history. -/
def slotOf (h : HistIndex) (id : String) : Effect → Slot
  | .exec _ _ _ =>
    match h.execScheduledById.lookup id with
    | none => .pending
    | some taskId =>
      match h.execCompletedByTask.lookup taskId with
      | some (some v) => .done (some v)
      | some none => .waiting taskId
      | none => .waiting taskId
  | .sleep _ _ =>
    match h.timerScheduledById.lookup id with
    | none => .pending
    | some taskId =>
      if h.timerFiredByTask.contains taskId then .done none else .waiting taskId
  | _ => .na

/-- Interpreter state threaded through one replay: the deterministic
cursor, the local ctx mirror, the model of the sigCount object captured at
entry (aliased records whether that captured object is the one reachable as
ctx.$wf.sigCount, so that writes through the mirror are visible in later
reads, mirroring the reference capture in the source), and the two staged
command lists. -/
structure IState where
  cursor : Nat
  ctx : Value
  sigCount : List (String × Nat)
  aliased : Bool
  setCmds : List Command
  commands : List Command

/-- Append to the non-set command list. -/
def pushCmd (st : IState) (c : Command) : IState :=
  { st with commands := st.commands ++ [c] }

/-- Recognizer of keys that address an entry of the captured sigCount
object. -/
def sigCountKey (key : String) : Option String :=
  match splitDot key with
  | ["$wf", "sigCount", name] => some name
  | _ => none

/-- setInternal of wfkit.ts: stages a set command and applies the same
dot-path write to the local ctx mirror; none models the strict-mode throw
of a write through a primitive. A write addressed at the captured sigCount
object is reflected in the captured model only when the capture aliases
ctx.$wf.sigCount (writes into a fresh fallback object are lost, as in the
source); non-numeric writes into that map are outside the modeled
well-typed fragment and only reach the mirror. -/
def IState.setInternal (st : IState) (key : String) (v : Value) : Option IState :=
  match setPath st.ctx key v with
  | none => none
  | some ctx' =>
    let st1 := { st with ctx := ctx', setCmds := st.setCmds ++ [Command.set key v] }
    match sigCountKey key, v with
    | some name, .num n =>
      some (if st1.aliased then { st1 with sigCount := assocSet st1.sigCount name n.toNat }
            else st1)
    | _, _ => some st1

/-- The exec command built for a pending exec effect: effect id embedded in
the name, JSON code payload, options spread over ctx.params.execDefaults. -/
def execCmdFor (ctx : Value) (eid : String) (name : String) (input : Value)
    (opts : Option ExecOpts) : Command :=
  let defaults := execDefaultsOf ctx
  let o := ExecOpts.merge defaults (opts.getD emptyOpts)
  .exec (some ("E:" ++ eid)) (execCode name input) o.runAfter o.idemKey o.maxTries o.retryDelays

/-- The sleep command built for a pending sleep effect: effect id embedded
in the label; seconds default to 0 when until is absent. -/
def sleepCmdFor (eid : String) (seconds : Option Nat) (until_ : Option Nat) : Command :=
  match until_ with
  | some u => .sleep none (some u) (some ("S:" ++ eid))
  | none => .sleep (some (seconds.getD 0)) none (some ("S:" ++ eid))

/-- Child walk of an all effect: schedules pending exec/sleep children,
ANDs done-ness, and collects the results array (undefined entries modeled
as null; a child of another kind is ignored by the source loop and so
contributes done with undefined). -/
def allLoop (h : HistIndex) (eid : String) :
    List Effect → Nat → IState → IState × Bool × List Value
  | [], _, st => (st, true, [])
  | child :: rest, i, st =>
    let cid := eid ++ "." ++ toString i
    let r1 : IState × Bool × Value :=
      match slotOf h cid child with
      | .pending =>
        (match child with
         | .exec nm inp op => pushCmd st (execCmdFor st.ctx cid nm inp op)
         | .sleep secs u => pushCmd st (sleepCmdFor cid secs u)
         | _ => st, false, Value.null)
      | .waiting _ => (st, false, Value.null)
      | .done v =>
        (st, true,
         match child with
         | .exec _ _ _ => v.getD Value.null
         | _ => Value.null)
      | .na => (st, true, Value.null)
    let r2 := allLoop h eid rest (i + 1) r1.1
    (r2.1, r1.2.1 && r2.2.1, r1.2.2 :: r2.2.2)

/-- Unconsumed-signal candidate of a race (key, signal name, payload,
timestamp). -/
structure SigCand where
  key : String
  name : String
  value : Value
  ts : Nat

/-- Phase one of race handling: schedule pending exec/sleep children,
record task-id-to-key correlations, and fold the earliest-timestamp
unconsumed signal candidate (strict comparison: the first of equal
timestamps wins, in key order). -/
def raceChildLoop (h : HistIndex) (eid : String) :
    List (String × Effect) → IState → List (String × String) → Option SigCand →
    IState × List (String × String) × Option SigCand
  | [], st, kbt, sw => (st, kbt, sw)
  | (key, child) :: rest, st, kbt, sw =>
    let cid := eid ++ "." ++ key
    let st1 :=
      match slotOf h cid child with
      | .pending =>
        match child with
        | .exec nm inp op => pushCmd st (execCmdFor st.ctx cid nm inp op)
        | .sleep secs u => pushCmd st (sleepCmdFor cid secs u)
        | _ => st
      | _ => st
    let kbt1 :=
      match child with
      | .exec _ _ _ =>
        match h.execScheduledById.lookup cid with
        | some tid => assocSet kbt tid key
        | none => kbt
      | .sleep _ _ =>
        match h.timerScheduledById.lookup cid with
        | some tid => assocSet kbt tid key
        | none => kbt
      | _ => kbt
    let sw1 :=
      match child with
      | .signal name =>
        let consumed := (st.sigCount.lookup name).getD 0
        let list := (h.signalsByName.lookup name).getD []
        match list[consumed]? with
        | some (ts, payload) =>
          let cand : SigCand := ⟨key, name, payload, ts⟩
          match sw with
          | none => some cand
          | some w => if cand.ts < w.ts then some cand else some w
        | none => sw
      | _ => sw
    raceChildLoop h eid rest st1 kbt1 sw1

/-- Phase two of race handling without a signal winner: first task id in
history completion order that maps to a done child wins. -/
def raceWinner (h : HistIndex) (eid : String) (options : List (String × Effect))
    (kbt : List (String × String)) : List String → Option (String × Option Value)
  | [] => none
  | tid :: rest =>
    match kbt.lookup tid with
    | none => raceWinner h eid options kbt rest
    | some key =>
      match options.lookup key with
      | none => raceWinner h eid options kbt rest
      | some child =>
        match slotOf h (eid ++ "." ++ key) child with
        | .done v => some (key, v)
        | _ => raceWinner h eid options kbt rest

/-- Outcome of one interpreter step: feed a value back into the generator,
or stop the replay for this tick. -/
inductive StepOut where
  | cont (st : IState) (input : Value)
  | stop (st : IState)

/-- One step of the replay loop at a yielded effect with id eid (the body
of the for loop in interpret, wfkit.ts lines 190-399); none models a thrown
TypeError from a ctx write. -/
def interpStep (h : HistIndex) (st : IState) (eid : String) : Effect → Option StepOut
  | .exec nm inp op =>
    match slotOf h eid (.exec nm inp op) with
    | .pending => some (.stop (pushCmd st (execCmdFor st.ctx eid nm inp op)))
    | .waiting _ => some (.stop st)
    | .done v => some (.cont st (v.getD Value.null))
    | .na => some (.stop st)
  | .sleep secs u =>
    match slotOf h eid (.sleep secs u) with
    | .pending => some (.stop (pushCmd st (sleepCmdFor eid secs u)))
    | .waiting _ => some (.stop st)
    | .done _ => some (.cont st Value.null)
    | .na => some (.stop st)
  | .signal name =>
    let consumed := (st.sigCount.lookup name).getD 0
    let list := (h.signalsByName.lookup name).getD []
    match list[consumed]? with
    | some (_, payload) =>
      (st.setInternal ("$wf.sigCount." ++ name) (.num (consumed + 1 : Nat))).map
        (fun st' => .cont st' payload)
    | none => some (.stop st)
  | .set key v => (st.setInternal key v).map (fun st' => .cont st' Value.null)
  | .complete value =>
    match value with
    | some v =>
      (st.setInternal "result" v).map (fun st' => .stop (pushCmd st' .complete_workflow))
    | none => some (.stop (pushCmd st .complete_workflow))
  | .fail reason => some (.stop (pushCmd st (.fail_workflow (reason.map Value.str))))
  | .all children =>
    let r := allLoop h eid children 0 st
    if r.2.1 then some (.cont r.1 (Value.arr r.2.2)) else some (.stop r.1)
  | .race options =>
    let r := raceChildLoop h eid options st [] none
    match r.2.2 with
    | some w =>
      (IState.setInternal r.1 ("$wf.sigCount." ++ w.name)
          (.num ((r.1.sigCount.lookup w.name).getD 0 + 1 : Nat))).map
        (fun st2 => .cont st2 (Value.obj [("key", .str w.key), ("value", w.value)]))
    | none =>
      match raceWinner h eid options r.2.1 h.raceOrder with
      | some (key, v) =>
        some (.cont r.1 (Value.obj [("key", .str key), ("value", v.getD Value.null)]))
      | none => some (.stop r.1)

/-- Replay loop of interpret: a returning generator emits
complete_workflow; a yield advances the cursor, stages the cursor write,
and steps the effect, feeding the produced value into the continuation. -/
def interpRun (h : HistIndex) : GenM → IState → Option IState
  | .ret, st => some { st with commands := st.commands ++ [Command.complete_workflow] }
  | .yld eff k, st =>
    let c' := st.cursor + 1
    match IState.setInternal { st with cursor := c' } "$wf.cursor" (.num (c' : Nat)) with
    | none => none
    | some st1 =>
      match interpStep h st1 (toString c') eff with
      | none => none
      | some (.cont st2 input) => interpRun h (k input) st2
      | some (.stop st2) => some st2

/-- Model of the sigCount capture ctx.$wf?.sigCount ?? \x7b\x7d at
interpreter entry: the entries of the object when it exists (aliased), an
unaliased empty fallback otherwise. -/
def initSigCount (ctx : Value) : List (String × Nat) × Bool :=
  match ctx.lookup "$wf" with
  | some w =>
    match w.lookup "sigCount" with
    | some (.obj fs) =>
      (fs.filterMap (fun p => match p.2 with | .num n => some (p.1, n.toNat) | _ => none),
       true)
    | _ => ([], false)
  | none => ([], false)

/-- interpret (wfkit.ts lines 113-403): index history, stage the initial
$wf bootstrap set when ctx.$wf is falsy, run the generator on ctx.params,
and emit all staged set commands before the other commands. -/
def interpret (gen : Value → GenM) (ctx : Value) (history : List WFEvent) :
    Option (List Command) :=
  let h := indexHistory history
  let sc := initSigCount ctx
  let initialSets : List Command :=
    if (match ctx.lookup "$wf" with | some w => w.truthy | none => false) then []
    else [Command.set "$wf" (Value.obj [("cursor", .num 0), ("sigCount", .obj [])])]
  let st0 : IState := ⟨0, ctx, sc.1, sc.2, initialSets, []⟩
  let params := (ctx.lookup "params").getD Value.null
  (interpRun h (gen params) st0).map (fun st => st.setCmds ++ st.commands)

/-- defineWorkflow: the decider obtained from a generator. -/
def defineWorkflow (gen : Value → GenM) : DeciderFn :=
  fun ctx history => interpret gen ctx history

/-! Observables and auxiliary predicates used by the verified properties. -/

/-- Fresh workflow state as produced by create (nonzero bookkeeping fields
are immaterial to the verified transitions). -/
def freshState : WFState :=
  { id := "wf1", rev := 1, status := .running, created_at := 0, updated_at := 0,
    ctx := .obj [], history := [], tasks := [], need_decide := true, next_wake := none,
    seq := 0, decider := "demo" }

/-- A task is currently leased: leased status and a lease present. -/
def currentlyLeased (tk : Task) : Prop :=
  Task.status tk = .leased ∧ Task.lease tk ≠ none

/-- Due-ness of a task for reserveReadyActivities at tNow: an exec task,
not terminal, not held by an unexpired lease, with run_after at or before
tNow. -/
def execDueB (tNow : Nat) : Task → Bool
  | .sleep _ => false
  | .exec t =>
    !(t.status == .completed || t.status == .failed) &&
    !(t.status == .leased &&
      (match t.lease with | some l => decide (tNow < l.expires_at) | none => false)) &&
    decide (t.run_after ≤ tNow)

/-- The ACTIVITY_RETRY backoff values recorded in a history, in order. -/
def retrySeconds (h : List WFEvent) : List Nat :=
  h.filterMap (fun e => match e with | .activity_retry _ _ a => some a | _ => none)

/-! Generic lemmas about the embedded containers. -/

set_option maxRecDepth 100000

theorem string_append_left_cancel {pre a b : String} (h : pre ++ a = pre ++ b) : a = b := by
  have hd := congrArg String.data h
  simp at hd
  exact String.ext hd

theorem findTask_id {tasks : List Task} {i : String} {tk : Task}
    (h : findTask tasks i = some tk) : Task.id tk = i := by
  have := List.find?_some h
  simpa using this

theorem findTask_updateTask {i : String} {t' : Task} (hid : Task.id t' = i)
    (tasks : List Task) :
    findTask (updateTask tasks i t') i = (findTask tasks i).map (fun _ => t') := by
  induction tasks with
  | nil => rfl
  | cons hd tl ih =>
    by_cases h : Task.id hd = i
    · simp [findTask, updateTask, List.find?, h, hid] at *
    · simp only [findTask, updateTask, List.map_cons] at *
      rw [if_neg (by simpa using h)]
      rw [List.find?_cons_of_neg _ (by simpa using h), List.find?_cons_of_neg _ (by simpa using h)]
      exact ih

theorem mem_insertById {x t : Task} {l : List Task} (h : x ∈ insertById t l) :
    x = t ∨ x ∈ l := by
  induction l with
  | nil => simpa [insertById] using h
  | cons hd tl ih =>
    by_cases hle : Task.id hd ≤ Task.id t
    · simp only [insertById, if_pos hle, List.mem_cons] at h
      rcases h with h | h
      · exact Or.inr (by simp [h])
      · rcases ih h with h | h
        · exact Or.inl h
        · exact Or.inr (by simp [h])
    · simp only [insertById, if_neg hle, List.mem_cons] at h
      rcases h with h | h
      · exact Or.inl h
      · exact Or.inr (by simpa using h)

theorem mem_sortTasks_aux {x : Task} (l : List Task) (acc : List Task)
    (h : x ∈ l.foldl (fun acc t => insertById t acc) acc) : x ∈ acc ∨ x ∈ l := by
  induction l generalizing acc with
  | nil => exact Or.inl h
  | cons hd tl ih =>
    rcases ih (insertById hd acc) h with h' | h'
    · rcases mem_insertById h' with h'' | h''
      · exact Or.inr (by simp [h''])
      · exact Or.inl h''
    · exact Or.inr (by simp [h'])

theorem mem_sortTasks {x : Task} {l : List Task} (h : x ∈ sortTasks l) : x ∈ l := by
  rcases mem_sortTasks_aux l [] h with h' | h'
  · cases h'
  · exact h'

/-! Claim C1. -/

/-- Claim C1 (code bug witness): applyCommands with an exec command mints a
fresh task id from seq and appends ACTIVITY_SCHEDULED carrying that id and
name, but the built exec task is never added to the state's tasks mapping:
scheduleExec omits the assignment into s.tasks that scheduleSleep performs,
so the tasks component is unchanged by every exec command. The concrete
evaluation shows a fresh workflow after one exec command with seq minted and
the event appended while tasks stays empty. -/
theorem scheduleExec_never_stores_task :
    (∀ s tNow name code ra ik mt rd,
      (scheduleExec s tNow name code ra ik mt rd).tasks = s.tasks ∧
      (scheduleExec s tNow name code ra ik mt rd).seq = s.seq + 1 ∧
      (scheduleExec s tNow name code ra ik mt rd).history =
        s.history ++ [WFEvent.activity_scheduled tNow (padTaskId (s.seq + 1)) (name.getD "exec")]) ∧
    applyCommands freshState [Command.exec (some "work") "do" none none none none] 100 =
      some { freshState with
             seq := 1
             history := [WFEvent.activity_scheduled 100 "t000001" "work"] } := by
  constructor
  · intro s tNow name code ra ik mt rd
    refine ⟨rfl, rfl, ?_⟩
    cases name <;> rfl
  · rfl

/-! Claim C5. -/

/-- Exec task value scheduled at time 0 with default options. -/
def dueExecTask : ExecTask := mkExecTask "t000001" 0 (some "work") "do" none none none none

/-- Workflow state holding one pending exec task due at any time from 0. -/
def dueTaskState : WFState := { freshState with tasks := [.exec dueExecTask], seq := 1 }

/-- Claim C5 counterexample: reserving with max_n = 0 at a time when a task
is due does not return an empty array and does write: the bound is checked
only after the first push, so exactly one task is leased. -/
theorem reserve_maxN_zero_leases_one :
    (reserveReadyActivities dueTaskState "w" 0 120 10).2.2 = true ∧
    (reserveReadyActivities dueTaskState "w" 0 120 10).2.1.length = 1 ∧
    ¬ ((reserveReadyActivities dueTaskState "w" 0 120 10).2.1 = [] ∧
       (reserveReadyActivities dueTaskState "w" 0 120 10).2.2 = false) := by
  refine ⟨rfl, rfl, fun h => ?_⟩
  have hb : (reserveReadyActivities dueTaskState "w" 0 120 10).2.2 = true := rfl
  rw [h.2] at hb
  exact Bool.noConfusion hb

theorem reserveScan_nil {w : String} {maxN ls tNow : Nat} {l : List Task}
    (h : ∀ t ∈ l, execDueB tNow t = false) : ∀ n, reserveScan w maxN ls tNow l n = [] := by
  induction l with
  | nil => intro n; rfl
  | cons hd tl ih =>
    intro n
    have hh := h hd (by simp)
    have ht : ∀ t ∈ tl, execDueB tNow t = false := fun t htl => h t (by simp [htl])
    cases hd with
    | sleep st => simpa [reserveScan] using ih ht n
    | exec t =>
      by_cases h1 : t.status = .completed ∨ t.status = .failed
      · simpa [reserveScan, if_pos h1] using ih ht n
      · rw [reserveScan, if_neg h1]
        by_cases h2 : t.status = .leased ∧
            (match t.lease with | some l => decide (tNow < l.expires_at) | none => false) = true
        · simpa [if_pos h2] using ih ht n
        · rw [if_neg h2]
          have h3 : ¬ t.run_after ≤ tNow := by
            intro hra
            have hterm : (t.status == .completed || t.status == .failed) = false := by
              cases hc : t.status <;> simp_all
            have hleas : (t.status == .leased &&
                (match t.lease with
                 | some l => decide (tNow < l.expires_at)
                 | none => false)) = false := by
              by_cases hsl : t.status = .leased
              · have hm : (match t.lease with
                    | some l => decide (tNow < l.expires_at)
                    | none => false) = false := by
                  by_contra hb
                  exact h2 ⟨hsl, by simpa using hb⟩
                simp [hm]
              · simp [hsl]
            have hdue : execDueB tNow (.exec t) = true := by
              simp [execDueB, hterm, hleas, hra]
            rw [hh] at hdue
            exact Bool.noConfusion hdue
          simpa [if_neg h3] using ih ht n

theorem reserveScan_zero_le_one {w : String} {ls tNow : Nat} (l : List Task) :
    ∀ n, (reserveScan w 0 ls tNow l n).length ≤ 1 := by
  induction l with
  | nil => intro n; simp [reserveScan]
  | cons hd tl ih =>
    intro n
    cases hd with
    | sleep st => simpa [reserveScan] using ih n
    | exec t =>
      rw [reserveScan]
      split
      · exact ih n
      · split
        · exact ih n
        · split
          · rw [if_pos (by omega)]
            simp
          · exact ih n

/-- Claim C5 amended: reserving at a time when no exec task is due returns
an empty array, performs no store write and leaves the state unchanged;
reserving with max_n = 0 leases at most one task (the count bound is
checked only after the first lease, so max_n = 0 behaves as max_n = 1
rather than returning empty). -/
theorem reserve_no_due_empty (s : WFState) (workerId : String) (maxN leaseSecs tNow : Nat) :
    ((∀ t ∈ s.tasks, execDueB tNow t = false) →
      reserveReadyActivities s workerId maxN leaseSecs tNow = (s, [], false)) ∧
    (maxN = 0 → (reserveReadyActivities s workerId maxN leaseSecs tNow).2.1.length ≤ 1) := by
  constructor
  · intro h
    have hs : ∀ t ∈ sortTasks s.tasks, execDueB tNow t = false :=
      fun t ht => h t (mem_sortTasks ht)
    have h0 := @reserveScan_nil workerId maxN leaseSecs tNow (sortTasks s.tasks) hs 0
    simp [reserveReadyActivities, h0]
  · intro h
    subst h
    rw [reserveReadyActivities]
    split
    · simp
    · simpa using @reserveScan_zero_le_one workerId leaseSecs tNow (sortTasks s.tasks) 0

/-- Claim C5 witness: a concrete state whose only exec task is not yet due
yields an empty reservation without a write, and with max_n = 0 at most one
lease. -/
theorem reserve_no_due_empty_witness :
    (reserveReadyActivities { freshState with
        tasks := [.exec { dueExecTask with run_after := 50 }], seq := 1 } "w" 3 120 10 =
      ({ freshState with tasks := [.exec { dueExecTask with run_after := 50 }], seq := 1 },
       [], false)) ∧
    (reserveReadyActivities { freshState with
        tasks := [.exec { dueExecTask with run_after := 50 }], seq := 1 } "w" 0 120 10).2.1.length ≤ 1 := by
  constructor
  · exact (reserve_no_due_empty _ "w" 3 120 10).1 (by decide)
  · exact (reserve_no_due_empty _ "w" 0 120 10).2 rfl

/-! Claim C8. -/

/-- Error condition of extendLease as the claim states it: the task is not
currently leased (missing, not exec, wrong status, or no lease), the
supplied owner or token differs from the lease, or the current expiry is
strictly before tNow. -/
def extendErrCond (s : WFState) (taskId owner : String) (token : Nat) (tNow : Nat) : Prop :=
  match findTask s.tasks taskId with
  | some (.exec t) =>
    t.status ≠ .leased ∨ t.lease = none ∨
    (∃ l, t.lease = some l ∧ (l.owner ≠ owner ∨ l.token ≠ token ∨ l.expires_at < tNow))
  | _ => True

/-- Claim C8: extendLease throws exactly under extendErrCond, and otherwise
returns the state whose only change is the target task's lease expiry
advanced by extra_secs from the current expiry (not from tNow). -/
theorem extendLease_spec (s : WFState) (taskId owner : String)
    (token extraSeconds tNow : Nat) :
    ((∃ e, extendLease s taskId owner token extraSeconds tNow = .error e) ↔
      extendErrCond s taskId owner token tNow) ∧
    (∀ t l, findTask s.tasks taskId = some (.exec t) → t.lease = some l →
      ∀ s', extendLease s taskId owner token extraSeconds tNow = .ok s' →
        s' = { s with
               tasks := updateTask s.tasks taskId
                 (.exec { t with
                          lease := some { l with
                                          expires_at := l.expires_at + extraSeconds } }) }) := by
  constructor
  · rw [extendLease, extendErrCond]
    rcases hf : findTask s.tasks taskId with _ | tk
    · simp
    · cases tk with
      | sleep st => simp
      | exec t =>
        dsimp only
        by_cases hs : t.status = .leased
        · rw [if_neg (by simpa using hs)]
          rcases hl : t.lease with _ | l
          · simp [hs]
          · dsimp only
            by_cases hot : l.owner ≠ owner ∨ l.token ≠ token
            · simp only [if_pos hot]
              constructor
              · intro _
                exact Or.inr (Or.inr ⟨l, rfl, Or.imp id Or.inl hot⟩)
              · intro _; exact ⟨.notYourLease, rfl⟩
            · rw [if_neg hot]
              by_cases hexp : l.expires_at < tNow
              · simp only [if_pos hexp]
                constructor
                · intro _
                  exact Or.inr (Or.inr ⟨l, rfl, Or.inr (Or.inr hexp)⟩)
                · intro _; exact ⟨.leaseExpired, rfl⟩
              · simp only [if_neg hexp]
                constructor
                · rintro ⟨e, he⟩; exact Except.noConfusion he
                · intro h
                  rcases h with h | h | ⟨l', hl', h⟩
                  · exact absurd hs h
                  · exact Option.noConfusion h
                  · injection hl' with hll
                    subst hll
                    push_neg at hot
                    rcases h with h | h | h
                    · exact absurd hot.1 h
                    · exact absurd hot.2 h
                    · exact absurd h hexp
        · rw [if_pos (by simpa using hs)]
          constructor
          · intro _; exact Or.inl hs
          · intro _; exact ⟨.notLeased, rfl⟩
  · intro t l hf hl s' hok
    rw [extendLease, hf] at hok
    dsimp only at hok
    by_cases hs : t.status = .leased
    · rw [if_neg (by simpa using hs), hl] at hok
      dsimp only at hok
      by_cases hot : l.owner ≠ owner ∨ l.token ≠ token
      · rw [if_pos hot] at hok; exact Except.noConfusion hok
      · rw [if_neg hot] at hok
        by_cases hexp : l.expires_at < tNow
        · rw [if_pos hexp] at hok; exact Except.noConfusion hok
        · rw [if_neg hexp] at hok
          injection hok with h
          exact h.symm
    · rw [if_pos (by simpa using hs)] at hok
      exact Except.noConfusion hok

/-- Concrete state holding one exec task leased by worker w with token 1
and expiry 130. -/
def leasedDemoState : WFState :=
  { freshState with
    tasks := [.exec { dueExecTask with
                      status := .leased
                      lease := some ⟨"w", 130, 1⟩
                      fence := some 1 }]
    seq := 1 }

/-- Claim C8 witness: on a concrete leased task a wrong token is rejected,
and the correct owner and token extend the expiry from the current expiry
130 to 140 even though tNow is 100. -/
theorem extendLease_spec_witness :
    (∃ e, extendLease leasedDemoState "t000001" "w" 2 10 100 = .error e) ∧
    extendLease leasedDemoState "t000001" "w" 1 10 100 =
    .ok { leasedDemoState with
          tasks := [.exec { dueExecTask with
                            status := .leased
                            lease := some ⟨"w", 140, 1⟩
                            fence := some 1 }] } := by
  constructor
  · exact (extendLease_spec leasedDemoState "t000001" "w" 2 10 100).1.mpr (by
      exact Or.inr (Or.inr ⟨⟨"w", 130, 1⟩, rfl, Or.inr (Or.inl (by decide))⟩))
  · have h := (extendLease_spec leasedDemoState "t000001" "w" 1 10 100).2
      { dueExecTask with status := .leased, lease := some ⟨"w", 130, 1⟩, fence := some 1 }
      ⟨"w", 130, 1⟩ rfl rfl
    rcases hok : extendLease leasedDemoState "t000001" "w" 1 10 100 with e | s'
    · exfalso
      have herr := (extendLease_spec leasedDemoState "t000001" "w" 1 10 100).1.mp ⟨_, hok⟩
      simp only [extendErrCond] at herr
      rcases herr with h' | h' | ⟨l', hl', h'⟩
      · exact h' rfl
      · exact Option.noConfusion h'
      · injection hl' with hll
        rcases h' with h' | h' | h'
        · exact h' (by rw [← hll])
        · exact h' (by rw [← hll])
        · rw [← hll] at h'
          exact absurd h' (by decide)
    · rw [h s' hok]
      rfl

/-! Claims C2 and C9: completeActivity fencing. -/

theorem taskStatus_exec (t : ExecTask) : Task.status (.exec t) = t.status := rfl

theorem taskLease_exec (t : ExecTask) : Task.lease (.exec t) = t.lease := rfl

theorem taskId_exec (t : ExecTask) : Task.id (.exec t) = t.id := rfl

/-- Stale completion call as the claim states it: the target task is
missing or terminal, or not currently leased, or a supplied lease token
differs from the lease's token. -/
def staleCall (s : WFState) (taskId : String) (lt : Option Nat) : Prop :=
  match findTask s.tasks taskId with
  | none => True
  | some tk =>
    Task.status tk = .completed ∨ Task.status tk = .failed ∨
    ¬ currentlyLeased tk ∨
    (∃ n, lt = some n ∧ (Task.lease tk).map Lease.token ≠ some n)

theorem completeActivity_stale {s : WFState} {taskId : String} (success : Bool)
    (res : Value) (lt : Option Nat) (tNow : Nat)
    (h : staleCall s taskId lt) :
    completeActivity s taskId success res lt tNow = (s, ⟨s.status, true, false⟩) := by
  rw [completeActivity]
  rcases hf : findTask s.tasks taskId with _ | tk
  · rfl
  · rw [staleCall, hf] at h
    dsimp only at h
    dsimp only
    by_cases hterm : Task.status tk = .completed ∨ Task.status tk = .failed
    · rw [if_pos hterm]
    · rw [if_neg hterm]
      cases tk with
      | sleep st => rfl
      | exec t =>
        rw [taskStatus_exec] at hterm
        rw [taskStatus_exec, taskLease_exec] at h
        dsimp only
        by_cases hsl : t.status = .leased
        · rw [if_neg (by simpa using hsl)]
          rcases hle : t.lease with _ | l
          · rfl
          · rw [hle] at h
            dsimp only
            push_neg at hterm
            have hmis : ∃ n, lt = some n ∧ l.token ≠ n := by
              rcases h with h | h | h | ⟨n, hn, hne⟩
              · exact absurd h hterm.1
              · exact absurd h hterm.2
              · exact absurd ⟨by rw [taskStatus_exec]; exact hsl,
                  by rw [taskLease_exec, hle]; exact fun hc => Option.noConfusion hc⟩ h
              · refine ⟨n, hn, fun he => hne ?_⟩
                show some l.token = some n
                exact congrArg some he
            rcases hmis with ⟨n, hn, hne⟩
            rw [hn]
            rw [if_pos (by
              show decide (l.token ≠ n) = true
              exact decide_eq_true hne)]
        · rw [if_pos (by simpa using hsl)]

theorem completeActivity_accepted {s : WFState} {taskId : String} (success : Bool)
    (res : Value) (lt : Option Nat) (tNow : Nat) {t : ExecTask} {l : Lease}
    (hf : findTask s.tasks taskId = some (.exec t))
    (hs : t.status = .leased) (hl : t.lease = some l)
    (htok : ∀ tok, lt = some tok → l.token = tok) :
    ∃ t' : ExecTask, t'.id = t.id ∧ t'.status ≠ .leased ∧
      (completeActivity s taskId success res lt tNow).1.tasks =
        updateTask s.tasks taskId (.exec t') ∧
      (completeActivity s taskId success res lt tNow).2.already = false ∧
      (completeActivity s taskId success res lt tNow).2.wrote = true := by
  rw [completeActivity, hf]
  dsimp only
  rw [if_neg (by rw [taskStatus_exec, hs]; simp)]
  rw [if_neg (by simpa using hs), hl]
  dsimp only
  rw [if_neg (by
    rcases lt with _ | tok
    · simp
    · simpa using htok tok rfl)]
  cases success with
  | true =>
    rw [if_pos rfl]
    exact ⟨{ t with status := .completed, result := some res, lease := some l },
      rfl, by simp, rfl, rfl, rfl⟩
  | false =>
    rw [if_neg (by simp)]
    by_cases htr : t.tries.getD 0 + 1 ≥ t.max_tries.getD 3
    · rw [if_pos htr]
      refine ⟨{ t with
                tries := some (t.tries.getD 0 + 1)
                error := some (normalizeErr res)
                status := .failed
                lease := some l }, rfl, by simp, rfl, rfl, rfl⟩
    · rw [if_neg htr]
      refine ⟨{ t with
                tries := some (t.tries.getD 0 + 1)
                error := some (normalizeErr res)
                status := .pending
                lease := none
                run_after := tNow + ((t.retry_delays.bind
                  fun ds => ds[t.tries.getD 0 + 1 - 1]?).getD
                  (min 300 (2 ^ (t.tries.getD 0 + 1)))) },
              rfl, by simp, rfl, rfl, rfl⟩

/-- Claim C2: a completion call whose target task is missing or terminal,
or not currently leased, or whose supplied lease token differs from the
lease's token, returns already with no state change and no store write;
and completing twice with the same arguments equals completing once, the
second call returning already with the state unchanged. -/
theorem completeActivity_stale_idempotent (s : WFState) (taskId : String)
    (success : Bool) (res : Value) (lt : Option Nat) (tNow : Nat) :
    (staleCall s taskId lt →
      completeActivity s taskId success res lt tNow = (s, ⟨s.status, true, false⟩)) ∧
    (completeActivity (completeActivity s taskId success res lt tNow).1 taskId success res lt tNow =
      ((completeActivity s taskId success res lt tNow).1,
       ⟨(completeActivity s taskId success res lt tNow).1.status, true, false⟩)) := by
  have again : ∀ h : staleCall s taskId lt,
      completeActivity (completeActivity s taskId success res lt tNow).1 taskId success res lt tNow =
      ((completeActivity s taskId success res lt tNow).1,
       ⟨(completeActivity s taskId success res lt tNow).1.status, true, false⟩) := by
    intro h
    have hs1 : (completeActivity s taskId success res lt tNow).1 = s := by
      rw [completeActivity_stale success res lt tNow h]
    rw [hs1]
    exact completeActivity_stale success res lt tNow h
  constructor
  · intro h
    exact completeActivity_stale success res lt tNow h
  · rcases hf : findTask s.tasks taskId with _ | tk
    · exact again (by rw [staleCall, hf]; trivial)
    · by_cases hterm : Task.status tk = .completed ∨ Task.status tk = .failed
      · refine again ?_
        rw [staleCall, hf]
        rcases hterm with h | h
        · exact Or.inl h
        · exact Or.inr (Or.inl h)
      · cases tk with
        | sleep st =>
          refine again ?_
          rw [staleCall, hf]
          exact Or.inr (Or.inr (Or.inl (fun hc => Option.noConfusion (Option.ne_none_iff_exists.mp hc.2).choose_spec)))
        | exec t =>
          by_cases hsl : t.status = .leased
          · rcases hle : t.lease with _ | l
            · refine again ?_
              rw [staleCall, hf]
              refine Or.inr (Or.inr (Or.inl (fun hc => ?_)))
              have := hc.2
              rw [taskLease_exec, hle] at this
              exact this rfl
            · by_cases hmis : ∃ n, lt = some n ∧ l.token ≠ n
              · refine again ?_
                rw [staleCall, hf]
                rcases hmis with ⟨n, hn, hne⟩
                refine Or.inr (Or.inr (Or.inr ⟨n, hn, fun he => hne ?_⟩))
                rw [taskLease_exec, hle] at he
                exact Option.some.inj he
              · have htok : ∀ tok, lt = some tok → l.token = tok := by
                  intro tok htk
                  by_contra hne
                  exact hmis ⟨tok, htk, hne⟩
                rcases completeActivity_accepted success res lt tNow hf hsl hle htok with
                  ⟨t', hid, hnl, htasks, _, _⟩
                have hidt : t.id = taskId := by
                  have := findTask_id hf
                  rwa [taskId_exec] at this
                have hfind : findTask (completeActivity s taskId success res lt tNow).1.tasks taskId =
                    some (.exec t') := by
                  rw [htasks, findTask_updateTask (by rw [taskId_exec, hid, hidt]), hf]
                  rfl
                refine completeActivity_stale success res lt tNow ?_
                rw [staleCall, hfind]
                refine Or.inr (Or.inr (Or.inl (fun hc => hnl ?_)))
                have := hc.1
                rwa [taskStatus_exec] at this
          · refine again ?_
            rw [staleCall, hf]
            refine Or.inr (Or.inr (Or.inl (fun hc => hsl ?_)))
            have := hc.1
            rwa [taskStatus_exec] at this

/-- Claim C2 witness: on a concrete leased task a completion with a
mismatched token 5 is a stale no-op, and a successful completion followed
by an identical call leaves the once-completed state unchanged with the
second call reporting already. -/
theorem completeActivity_stale_idempotent_witness :
    (completeActivity leasedDemoState "t000001" true .null (some 5) 10 =
      (leasedDemoState, ⟨.running, true, false⟩)) ∧
    (completeActivity (completeActivity leasedDemoState "t000001" true .null (some 1) 10).1
        "t000001" true .null (some 1) 10 =
      ((completeActivity leasedDemoState "t000001" true .null (some 1) 10).1,
       ⟨(completeActivity leasedDemoState "t000001" true .null (some 1) 10).1.status,
        true, false⟩)) := by
  constructor
  · exact (completeActivity_stale_idempotent leasedDemoState "t000001" true .null (some 5) 10).1
      (Or.inr (Or.inr (Or.inr ⟨5, rfl, by decide⟩)))
  · exact (completeActivity_stale_idempotent leasedDemoState "t000001" true .null (some 1) 10).2

/-- Claim C9: a completion call that omits the lease token entirely is
accepted on any currently leased task and mutates it out of the leased
status, whatever the lease's owner and token are; the fencing comparison
happens only when a token is supplied, in which case a differing token is a
stale no-op. -/
theorem completeActivity_omitted_token (s : WFState) (taskId : String)
    (success : Bool) (res : Value) (tNow : Nat) (t : ExecTask) (l : Lease)
    (hf : findTask s.tasks taskId = some (.exec t))
    (hs : t.status = .leased) (hl : t.lease = some l) :
    ((completeActivity s taskId success res none tNow).2.already = false ∧
     (completeActivity s taskId success res none tNow).2.wrote = true ∧
     ∃ t' : ExecTask, findTask (completeActivity s taskId success res none tNow).1.tasks taskId =
        some (.exec t') ∧ t'.status ≠ .leased) ∧
    (∀ tok, tok ≠ l.token →
      completeActivity s taskId success res (some tok) tNow = (s, ⟨s.status, true, false⟩)) := by
  constructor
  · rcases completeActivity_accepted success res none tNow hf hs hl (by intro tok h; cases h) with
      ⟨t', hid, hnl, htasks, halready, hwrote⟩
    refine ⟨halready, hwrote, t', ?_, hnl⟩
    have hidt : t.id = taskId := by
      have := findTask_id hf
      rwa [taskId_exec] at this
    rw [htasks, findTask_updateTask (by rw [taskId_exec, hid, hidt]), hf]
    rfl
  · intro tok hne
    refine completeActivity_stale success res (some tok) tNow ?_
    rw [staleCall, hf]
    refine Or.inr (Or.inr (Or.inr ⟨tok, rfl, fun he => hne ?_⟩))
    rw [taskLease_exec, hl] at he
    exact (Option.some.inj he).symm

/-- Claim C9 witness: a concrete leased task completed without a token is
accepted (already false, a write, the task completed), and the same call
with token 5 against lease token 1 is a stale no-op. -/
theorem completeActivity_omitted_token_witness :
    ((completeActivity leasedDemoState "t000001" true .null none 10).2.already = false ∧
     (completeActivity leasedDemoState "t000001" true .null none 10).2.wrote = true ∧
     ∃ t' : ExecTask, findTask (completeActivity leasedDemoState "t000001" true .null none 10).1.tasks
        "t000001" = some (.exec t') ∧ t'.status ≠ .leased) ∧
    (∀ tok, tok ≠ 1 →
      completeActivity leasedDemoState "t000001" true .null (some tok) 10 =
        (leasedDemoState, ⟨.running, true, false⟩)) := by
  have h := completeActivity_omitted_token leasedDemoState "t000001" true .null 10
    { dueExecTask with status := .leased, lease := some ⟨"w", 130, 1⟩, fence := some 1 }
    ⟨"w", 130, 1⟩ rfl rfl rfl
  exact h

/-! Claim C3: retry backoff. -/

/-- Error value reported by the always-failing activity of the backoff
scenario. -/
def boomErr : Value := .obj [("type", .str "retryable"), ("message", .str "boom")]

/-- Backoff scenario, step 1: reserve the single due exec task at t = 10. -/
def backoffS1 : WFState := (reserveReadyActivities dueTaskState "w" 1 120 10).1

/-- Backoff scenario, step 2: first failure at t = 10. -/
def backoffC1 : WFState := (completeActivity backoffS1 "t000001" false boomErr (some 1) 10).1

/-- Backoff scenario, step 3: reserve again at t = 12 (first retry due). -/
def backoffS2 : WFState := (reserveReadyActivities backoffC1 "w" 1 120 12).1

/-- Backoff scenario, step 4: second failure at t = 12. -/
def backoffC2 : WFState := (completeActivity backoffS2 "t000001" false boomErr (some 2) 12).1

/-- Backoff scenario, step 5: reserve again at t = 16 (second retry due). -/
def backoffS3 : WFState := (reserveReadyActivities backoffC2 "w" 1 120 16).1

/-- Backoff scenario, step 6: third failure at t = 16 exhausts the tries. -/
def backoffC3 : WFState := (completeActivity backoffS3 "t000001" false boomErr (some 3) 16).1

/-- Claim C3: a failed completion of a leased exec task whose incremented
tries is still below max_tries re-queues the task pending with the lease
cleared and run_after = tNow + backoff, where backoff is
retry_delays[tries-1] if present and min(300, 2^tries) otherwise, and
appends ACTIVITY_RETRY with that backoff; and the single always-failing
exec with defaults observes after_seconds exactly [2, 4] followed by
ACTIVITY_FAILED with workflow status failed on the third try. -/
theorem completeActivity_retry_backoff (s : WFState) (taskId : String) (res : Value)
    (lt : Option Nat) (tNow : Nat) (t : ExecTask) (l : Lease)
    (hf : findTask s.tasks taskId = some (.exec t))
    (hs : t.status = .leased) (hl : t.lease = some l)
    (htok : ∀ tok, lt = some tok → l.token = tok)
    (htr : t.tries.getD 0 + 1 < t.max_tries.getD 3) :
    (completeActivity s taskId false res lt tNow =
      ({ s with
         tasks := updateTask s.tasks taskId (.exec { t with
           tries := some (t.tries.getD 0 + 1)
           error := some (normalizeErr res)
           status := .pending
           lease := none
           run_after := tNow + ((t.retry_delays.bind fun ds => ds[t.tries.getD 0 + 1 - 1]?).getD
             (min 300 (2 ^ (t.tries.getD 0 + 1)))) })
         history := s.history ++ [WFEvent.activity_retry tNow t.id
           ((t.retry_delays.bind fun ds => ds[t.tries.getD 0 + 1 - 1]?).getD
             (min 300 (2 ^ (t.tries.getD 0 + 1))))]
         need_decide := true
         updated_at := tNow },
       ⟨s.status, false, true⟩)) ∧
    retrySeconds backoffC3.history = [2, 4] ∧
    backoffC3.status = .failed ∧
    backoffC3.history.getLast? =
      some (WFEvent.activity_failed 16 "t000001" ⟨.retryable, "boom", none⟩) := by
  refine ⟨?_, rfl, rfl, rfl⟩
  rw [completeActivity, hf]
  dsimp only
  rw [if_neg (by rw [taskStatus_exec, hs]; simp)]
  rw [if_neg (by simpa using hs), hl]
  dsimp only
  rw [if_neg (by
    rcases lt with _ | tok
    · simp
    · simpa using htok tok rfl)]
  rw [if_neg (by simp)]
  rw [if_neg (by omega)]

/-- Claim C3 witness: on the concrete leased task with tries 0 and default
max_tries the first failure becomes pending with run_after 10 + 2 and
ACTIVITY_RETRY after_seconds 2; the scenario conclusions are extracted from
the same theorem application. -/
theorem completeActivity_retry_backoff_witness :
    (completeActivity leasedDemoState "t000001" false boomErr none 10 =
      ({ leasedDemoState with
         tasks := updateTask leasedDemoState.tasks "t000001" (.exec
           { dueExecTask with
             status := .pending
             lease := none
             fence := some 1
             tries := some 1
             error := some ⟨.retryable, "boom", none⟩
             run_after := 12 })
         history := [WFEvent.activity_retry 10 "t000001" 2]
         need_decide := true
         updated_at := 10 },
       ⟨.running, false, true⟩)) ∧
    retrySeconds backoffC3.history = [2, 4] ∧
    backoffC3.status = .failed := by
  have h := completeActivity_retry_backoff leasedDemoState "t000001" boomErr none 10
    { dueExecTask with status := .leased, lease := some ⟨"w", 130, 1⟩, fence := some 1 }
    ⟨"w", 130, 1⟩ rfl rfl rfl (by intro tok hcon; cases hcon) (by decide)
  exact ⟨h.1, h.2.1, h.2.2.1⟩

/-! Claim C4: next_wake after a tick. -/

/-- Wake times contributed by one task as computeNextWake reads them:
run_after of a pending task, lease expiry of a leased task that carries a
lease. -/
def taskWakeTimes (t : Task) : List Nat :=
  if Task.status t = .pending then [Task.run_after t]
  else if Task.status t = .leased then
    match Task.lease t with
    | some l => [l.expires_at]
    | none => []
  else []

/-- Spec reading of next_wake (spec section 4.3.2 step 3): the minimum of
the run_after values of all pending tasks together with the lease expiries
of all leased tasks, null when there is none (a leased task's expiry is
the expires_at of its lease when present). -/
def specNextWake (tasks : List Task) : Option Nat :=
  ((tasks.filterMap fun t => if Task.status t = .pending then some (Task.run_after t) else none) ++
   (tasks.filterMap fun t => if Task.status t = .leased then (Task.lease t).map Lease.expires_at
                             else none)).foldl minOpt none

theorem minOpt_some (a n : Nat) : minOpt (some a) n = some (min a n) := by
  simp only [minOpt, Nat.min_def]
  congr 1
  by_cases h : n < a
  · rw [if_pos h, if_neg (by omega)]
  · rw [if_neg h, if_pos (by omega)]

theorem foldl_minOpt_some (l : List Nat) :
    ∀ a, l.foldl minOpt (some a) = some (l.foldl min a) := by
  induction l with
  | nil => intro a; rfl
  | cons x xs ih =>
    intro a
    rw [List.foldl_cons, List.foldl_cons, minOpt_some]
    exact ih (min a x)

theorem foldl_min_le (xs : List Nat) :
    ∀ a, xs.foldl min a ≤ a ∧ ∀ y ∈ xs, xs.foldl min a ≤ y := by
  induction xs with
  | nil => intro a; exact ⟨le_refl a, by simp⟩
  | cons x xs ih =>
    intro a
    rcases ih (min a x) with ⟨h1, h2⟩
    refine ⟨le_trans h1 (min_le_left a x), ?_⟩
    intro y hy
    rcases List.mem_cons.mp hy with rfl | hy
    · exact le_trans h1 (min_le_right a y)
    · exact h2 y hy

theorem foldl_min_mem (xs : List Nat) :
    ∀ a, xs.foldl min a = a ∨ xs.foldl min a ∈ xs := by
  induction xs with
  | nil => intro a; exact Or.inl rfl
  | cons x xs ih =>
    intro a
    rw [List.foldl_cons]
    rcases ih (min a x) with h | h
    · rw [h]
      rcases Nat.le_total a x with hax | hax
      · exact Or.inl (min_eq_left hax)
      · exact Or.inr (by simp [min_eq_right hax])
    · exact Or.inr (List.mem_cons_of_mem x h)

theorem foldl_minOpt_char (l : List Nat) :
    (l.foldl minOpt none = none ↔ l = []) ∧
    (∀ m, l.foldl minOpt none = some m → m ∈ l ∧ ∀ x ∈ l, m ≤ x) := by
  cases l with
  | nil =>
    refine ⟨by simp, ?_⟩
    intro m h
    cases h
  | cons x xs =>
    have hfold : (x :: xs).foldl minOpt none = some (xs.foldl min x) := by
      rw [List.foldl_cons, show minOpt none x = some x from rfl, foldl_minOpt_some]
    constructor
    · rw [hfold]
      constructor
      · intro h; cases h
      · intro h; cases h
    · intro m h
      rw [hfold] at h
      injection h with h
      constructor
      · rcases foldl_min_mem xs x with h' | h'
        · rw [← h, h']; simp
        · rw [← h]; exact List.mem_cons_of_mem x h'
      · intro y hy
        rcases List.mem_cons.mp hy with rfl | hy
        · rw [← h]; exact (foldl_min_le xs y).1
        · rw [← h]; exact (foldl_min_le xs x).2 y hy

theorem foldl_minOpt_congr {l1 l2 : List Nat} (h : ∀ y, y ∈ l1 ↔ y ∈ l2) :
    l1.foldl minOpt none = l2.foldl minOpt none := by
  rcases h1 : l1.foldl minOpt none with _ | m1
  · have he : l1 = [] := (foldl_minOpt_char l1).1.mp h1
    subst he
    rcases h2 : l2.foldl minOpt none with _ | m2
    · rfl
    · rcases (foldl_minOpt_char l2).2 m2 h2 with ⟨hm, _⟩
      exact absurd ((h m2).mpr hm) (by simp)
  · rcases (foldl_minOpt_char l1).2 m1 h1 with ⟨hm1, hmin1⟩
    rcases h2 : l2.foldl minOpt none with _ | m2
    · have he : l2 = [] := (foldl_minOpt_char l2).1.mp h2
      subst he
      exact absurd ((h m1).mp hm1) (by simp)
    · rcases (foldl_minOpt_char l2).2 m2 h2 with ⟨hm2, hmin2⟩
      rw [Nat.le_antisymm (hmin1 m2 ((h m2).mpr hm2)) (hmin2 m1 ((h m1).mp hm1))]

theorem computeNextWake_eq_flat (tasks : List Task) :
    computeNextWake tasks = (tasks.flatMap taskWakeTimes).foldl minOpt none := by
  rw [computeNextWake]
  suffices h : ∀ acc, tasks.foldl
      (fun next t =>
        match t with
        | .sleep st =>
          if st.status = .pending then minOpt next st.run_after else next
        | .exec et =>
          if et.status = .pending then minOpt next et.run_after
          else if et.status = .leased then
            match et.lease with
            | some l => minOpt next l.expires_at
            | none => next
          else next) acc = (tasks.flatMap taskWakeTimes).foldl minOpt acc by
    exact h none
  induction tasks with
  | nil => intro acc; rfl
  | cons t ts ih =>
    intro acc
    rw [List.flatMap_cons, List.foldl_append]
    cases t with
    | sleep st =>
      rw [List.foldl_cons]
      dsimp only
      by_cases hp : st.status = .pending
      · rw [if_pos hp]
        have hw : (taskWakeTimes (Task.sleep st)).foldl minOpt acc = minOpt acc st.run_after := by
          simp [taskWakeTimes, Task.status, Task.run_after, hp]
        rw [hw]
        exact ih _
      · rw [if_neg hp]
        have hw : (taskWakeTimes (Task.sleep st)).foldl minOpt acc = acc := by
          by_cases hlz : st.status = .leased
          · simp [taskWakeTimes, Task.status, Task.lease, hp, hlz]
          · simp [taskWakeTimes, Task.status, hp, hlz]
        rw [hw]
        exact ih _
    | exec et =>
      rw [List.foldl_cons]
      dsimp only
      by_cases hp : et.status = .pending
      · rw [if_pos hp]
        have hw : (taskWakeTimes (Task.exec et)).foldl minOpt acc = minOpt acc et.run_after := by
          simp [taskWakeTimes, Task.status, Task.run_after, hp]
        rw [hw]
        exact ih _
      · rw [if_neg hp]
        by_cases hlz : et.status = .leased
        · rw [if_pos hlz]
          rcases hle : et.lease with _ | l
          · have hw : (taskWakeTimes (Task.exec et)).foldl minOpt acc = acc := by
              simp [taskWakeTimes, Task.status, Task.lease, hp, hlz, hle]
            rw [hw]
            exact ih _
          · have hw : (taskWakeTimes (Task.exec et)).foldl minOpt acc = minOpt acc l.expires_at := by
              simp [taskWakeTimes, Task.status, Task.lease, hp, hlz, hle]
            rw [hw]
            exact ih _
        · rw [if_neg hlz]
          have hw : (taskWakeTimes (Task.exec et)).foldl minOpt acc = acc := by
            simp [taskWakeTimes, Task.status, hp, hlz]
          rw [hw]
          exact ih _

theorem mem_wakeTimes_iff (tasks : List Task) :
    ∀ y, y ∈ tasks.flatMap taskWakeTimes ↔
    y ∈ ((tasks.filterMap fun t => if Task.status t = .pending then some (Task.run_after t) else none) ++
         (tasks.filterMap fun t => if Task.status t = .leased then (Task.lease t).map Lease.expires_at
                                   else none)) := by
  intro y
  rw [List.mem_flatMap, List.mem_append, List.mem_filterMap, List.mem_filterMap]
  constructor
  · rintro ⟨t, ht, hy⟩
    rw [taskWakeTimes] at hy
    by_cases hp : Task.status t = .pending
    · rw [if_pos hp] at hy
      exact Or.inl ⟨t, ht, by rw [if_pos hp, List.mem_singleton.mp hy]⟩
    · rw [if_neg hp] at hy
      by_cases hlz : Task.status t = .leased
      · rw [if_pos hlz] at hy
        rcases hle : Task.lease t with _ | l
        · rw [hle] at hy; cases hy
        · rw [hle] at hy
          refine Or.inr ⟨t, ht, ?_⟩
          rw [if_pos hlz, hle]
          exact congrArg some (List.mem_singleton.mp hy).symm
      · rw [if_neg hlz] at hy; cases hy
  · rintro (⟨t, ht, hy⟩ | ⟨t, ht, hy⟩)
    · by_cases hp : Task.status t = .pending
      · rw [if_pos hp] at hy
        injection hy with hy
        refine ⟨t, ht, ?_⟩
        rw [taskWakeTimes, if_pos hp, hy]
        simp
      · rw [if_neg hp] at hy; cases hy
    · by_cases hlz : Task.status t = .leased
      · rw [if_pos hlz] at hy
        rcases hle : Task.lease t with _ | l
        · rw [hle] at hy; cases hy
        · rw [hle] at hy
          injection hy with hy
          refine ⟨t, ht, ?_⟩
          rw [taskWakeTimes, if_neg (by rw [hlz]; intro hc; cases hc), if_pos hlz, hle]
          simp [hy]
      · rw [if_neg hlz] at hy; cases hy

theorem computeNextWake_eq_spec (tasks : List Task) :
    computeNextWake tasks = specNextWake tasks := by
  rw [computeNextWake_eq_flat, specNextWake]
  exact foldl_minOpt_congr (mem_wakeTimes_iff tasks)

/-- Claim C4: after every successful tick the persisted next_wake equals
the minimum over run_after of pending tasks and lease expiry of leased
tasks of the resulting state, null when no such task exists, and the
reported next_wake is the persisted one. -/
theorem tick_next_wake (d : DeciderFn) (s : WFState) (tNow : Nat) :
    ∀ r, tick d s tNow = some r →
      r.1.next_wake = specNextWake r.1.tasks ∧ r.2.1 = r.1.next_wake := by
  intro r hr
  simp only [tick] at hr
  rcases Option.map_eq_some'.mp hr with ⟨s2, _, hfr⟩
  subst hfr
  exact ⟨computeNextWake_eq_spec s2.tasks, rfl⟩

/-- Decider scheduling one 5-second sleep, for the C4 witness. -/
def tickDemoDecider : DeciderFn := fun _ _ => some [Command.sleep (some 5) none none]

/-- Concrete result of ticking a fresh workflow with tickDemoDecider at
t = 100. -/
def tickDemoResult : WFState × Option Nat × WFStatus :=
  (tick tickDemoDecider freshState 100).getD (freshState, none, .running)

/-- Claim C4 witness: the concrete tick schedules a sleep due at 105 and
the persisted next_wake equals the spec minimum of the resulting tasks. -/
theorem tick_next_wake_witness :
    tick tickDemoDecider freshState 100 = some tickDemoResult ∧
    tickDemoResult.1.next_wake = specNextWake tickDemoResult.1.tasks ∧
    tickDemoResult.2.1 = tickDemoResult.1.next_wake :=
  ⟨rfl, tick_next_wake tickDemoDecider freshState 100 tickDemoResult rfl⟩

/-! Claim C10: generator normal return. -/

/-- Set command recognizer. -/
def isSetCmd : Command → Prop
  | .set _ _ => True
  | _ => False

theorem setInternal_parts {st st' : IState} {k : String} {v : Value}
    (h : st.setInternal k v = some st') :
    st'.setCmds = st.setCmds ++ [Command.set k v] ∧ st'.commands = st.commands := by
  rw [IState.setInternal] at h
  split at h
  · cases h
  · split at h
    · injection h with h
      subst h
      constructor <;> (split <;> rfl)
    · injection h with h
      subst h
      exact ⟨rfl, rfl⟩

theorem interpRun_yld_complete_none (h : HistIndex) (k : Value → GenM) (st : IState) :
    ∀ stF, interpRun h (GenM.yld (.complete none) k) st = some stF →
      stF.setCmds = st.setCmds ++ [Command.set "$wf.cursor" (.num (st.cursor + 1 : Nat))] ∧
      stF.commands = st.commands ++ [Command.complete_workflow] := by
  intro stF hrun
  simp only [interpRun] at hrun
  rcases hset : IState.setInternal { st with cursor := st.cursor + 1 } "$wf.cursor"
      (.num (st.cursor + 1 : Nat)) with _ | st1
  · rw [hset] at hrun; cases hrun
  · rw [hset] at hrun
    simp only [interpStep] at hrun
    injection hrun with hrun
    rcases setInternal_parts hset with ⟨hsc, hcc⟩
    rw [← hrun]
    exact ⟨hsc, by rw [pushCmd, hcc]⟩

theorem applyCommands_last_complete (cs : List Command) :
    ∀ (s : WFState) (tNow : Nat) (s' : WFState),
    applyCommands s (cs ++ [Command.complete_workflow]) tNow = some s' →
    s'.status = .completed := by
  induction cs with
  | nil =>
    intro s tNow s' h
    have h' : some ({ s with status := .completed, history := s.history ++ [WFEvent.wf_completed tNow] } : WFState) = some s' := h
    injection h' with h'
    rw [← h']
  | cons c cs ih =>
    intro s tNow s' h
    rw [List.cons_append, applyCommands, List.foldlM_cons] at h
    rcases hc : applyCommand s tNow c with _ | s1
    · rw [hc] at h; cases h
    · rw [hc] at h
      exact ih s1 tNow s' h

/-- Claim C10: a generator that returns normally makes the interpreter
emit complete_workflow as its final command (the rest being set commands),
exactly as a generator yielding complete with no value does, and applying
either command list to any workflow state marks the workflow completed. -/
theorem generator_return_completes (ctx : Value) (history : List WFEvent)
    (k : Value → GenM) (s : WFState) (tNow : Nat) :
    (∃ sets, (∀ c ∈ sets, isSetCmd c) ∧
      interpret (fun _ => GenM.ret) ctx history = some (sets ++ [Command.complete_workflow])) ∧
    (∀ cmds, interpret (fun _ => GenM.yld (.complete none) k) ctx history = some cmds →
      ∃ sets, (∀ c ∈ sets, isSetCmd c) ∧ cmds = sets ++ [Command.complete_workflow]) ∧
    (∀ cmds s', interpret (fun _ => GenM.ret) ctx history = some cmds →
      applyCommands s cmds tNow = some s' → s'.status = .completed) ∧
    (∀ cmds s', interpret (fun _ => GenM.yld (.complete none) k) ctx history = some cmds →
      applyCommands s cmds tNow = some s' → s'.status = .completed) := by
  have hsets0 : ∀ c ∈ (if (match ctx.lookup "$wf" with | some w => w.truthy | none => false)
      then ([] : List Command)
      else [Command.set "$wf" (Value.obj [("cursor", .num 0), ("sigCount", .obj [])])]),
      isSetCmd c := by
    intro c hc
    split at hc
    · cases hc
    · rw [List.mem_singleton.mp hc]
      trivial
  have hret : interpret (fun _ => GenM.ret) ctx history =
      some ((if (match ctx.lookup "$wf" with | some w => w.truthy | none => false)
             then ([] : List Command)
             else [Command.set "$wf" (Value.obj [("cursor", .num 0), ("sigCount", .obj [])])]) ++
            [Command.complete_workflow]) := by
    simp only [interpret, interpRun]
    rfl
  have hyld : ∀ cmds, interpret (fun _ => GenM.yld (.complete none) k) ctx history = some cmds →
      ∃ sets, (∀ c ∈ sets, isSetCmd c) ∧ cmds = sets ++ [Command.complete_workflow] := by
    intro cmds h
    simp only [interpret] at h
    rcases Option.map_eq_some'.mp h with ⟨stF, hrun, hcmds⟩
    rcases interpRun_yld_complete_none _ _ _ stF hrun with ⟨hsc, hcc⟩
    refine ⟨stF.setCmds, ?_, ?_⟩
    · intro c hc
      rw [hsc] at hc
      rcases List.mem_append.mp hc with hc | hc
      · exact hsets0 c hc
      · rw [List.mem_singleton.mp hc]
        trivial
    · rw [← hcmds, hcc]
      simp
  refine ⟨⟨_, hsets0, hret⟩, hyld, ?_, ?_⟩
  · intro cmds s' hi ha
    rw [hret] at hi
    injection hi with hi
    rw [← hi] at ha
    exact applyCommands_last_complete _ s tNow s' ha
  · intro cmds s' hi ha
    rcases hyld cmds hi with ⟨sets, _, hc⟩
    rw [hc] at ha
    exact applyCommands_last_complete _ s tNow s' ha

/-- Command list emitted by the interpreter for a generator that returns
normally on a fresh context. -/
def c10Cmds : List Command :=
  [Command.set "$wf" (Value.obj [("cursor", .num 0), ("sigCount", .obj [])]),
   Command.complete_workflow]

/-- Workflow state after applying that command list to a fresh workflow. -/
def c10Final : WFState := (applyCommands freshState c10Cmds 0).getD freshState

/-- Claim C10 witness: on a fresh context the interpreter output of an
immediately returning generator, applied to a fresh workflow, marks it
completed. -/
theorem generator_return_completes_witness : c10Final.status = .completed :=
  (generator_return_completes (.obj []) [] (fun _ => GenM.ret) freshState 0).2.2.1
    c10Cmds c10Final rfl rfl

/-! Claim C6: interpreter determinism and replay fidelity. -/

/-- Freshness of a command against a history index: an exec or sleep
command whose name or label embeds an effect id has no ACTIVITY_SCHEDULED
or TIMER_SCHEDULED correlation recorded for that effect id; set and
terminal commands are unconstrained. -/
def cmdFresh (h : HistIndex) : Command → Prop
  | .exec nm _ _ _ _ _ =>
    ∀ eid, nm = some ("E:" ++ eid) → h.execScheduledById.lookup eid = none
  | .sleep _ _ lbl =>
    ∀ eid, lbl = some ("S:" ++ eid) → h.timerScheduledById.lookup eid = none
  | _ => True

/-- Command-list freshness. -/
def goodCmds (h : HistIndex) (l : List Command) : Prop := ∀ c ∈ l, cmdFresh h c

/-- Interpreter-state invariant: every staged set command is a set command
and every staged other command is fresh. -/
def stGood (h : HistIndex) (st : IState) : Prop :=
  (∀ c ∈ st.setCmds, isSetCmd c) ∧ goodCmds h st.commands

theorem isSetCmd_fresh {h : HistIndex} {c : Command} (hs : isSetCmd c) : cmdFresh h c := by
  cases c with
  | set k v => trivial
  | exec a b cc d e f => exact hs.elim
  | sleep a b cc => exact hs.elim
  | complete_workflow => trivial
  | fail_workflow r => trivial

theorem slotOf_exec_pending {h : HistIndex} {eid : String} {nm : String} {inp : Value}
    {op : Option ExecOpts} (hp : slotOf h eid (.exec nm inp op) = .pending) :
    h.execScheduledById.lookup eid = none := by
  rw [slotOf] at hp
  rcases hq : h.execScheduledById.lookup eid with _ | tid
  · rfl
  · rw [hq] at hp
    dsimp only at hp
    rcases hr : h.execCompletedByTask.lookup tid with _ | r
    · rw [hr] at hp; cases hp
    · rcases r with _ | v
      · rw [hr] at hp; cases hp
      · rw [hr] at hp; cases hp

theorem slotOf_sleep_pending {h : HistIndex} {eid : String} {secs u : Option Nat}
    (hp : slotOf h eid (.sleep secs u) = .pending) :
    h.timerScheduledById.lookup eid = none := by
  rw [slotOf] at hp
  rcases hq : h.timerScheduledById.lookup eid with _ | tid
  · rfl
  · rw [hq] at hp
    dsimp only at hp
    split at hp
    · cases hp
    · cases hp

theorem cmdFresh_execCmd {h : HistIndex} {eid : String} (ctx : Value) (nm : String)
    (inp : Value) (op : Option ExecOpts)
    (hp : h.execScheduledById.lookup eid = none) :
    cmdFresh h (execCmdFor ctx eid nm inp op) := by
  intro eid' he
  injection he with he
  rw [← string_append_left_cancel he]
  exact hp

theorem cmdFresh_sleepCmd {h : HistIndex} {eid : String} (secs u : Option Nat)
    (hp : h.timerScheduledById.lookup eid = none) :
    cmdFresh h (sleepCmdFor eid secs u) := by
  cases u with
  | none =>
    intro eid' he
    injection he with he
    rw [← string_append_left_cancel he]
    exact hp
  | some x =>
    intro eid' he
    injection he with he
    rw [← string_append_left_cancel he]
    exact hp

theorem pushCmd_good {h : HistIndex} {st : IState} {c : Command}
    (hst : stGood h st) (hc : cmdFresh h c) : stGood h (pushCmd st c) := by
  refine ⟨hst.1, ?_⟩
  intro c' hc'
  rcases List.mem_append.mp hc' with hc' | hc'
  · exact hst.2 c' hc'
  · rw [List.mem_singleton.mp hc']
    exact hc

theorem setInternal_good {h : HistIndex} {st st' : IState} {k : String} {v : Value}
    (hst : stGood h st) (hsi : st.setInternal k v = some st') : stGood h st' := by
  rcases setInternal_parts hsi with ⟨hsc, hcc⟩
  constructor
  · rw [hsc]
    intro c hc
    rcases List.mem_append.mp hc with hc | hc
    · exact hst.1 c hc
    · rw [List.mem_singleton.mp hc]
      trivial
  · rw [hcc]
    exact hst.2

theorem allLoop_good {h : HistIndex} {eid : String} :
    ∀ (children : List Effect) (i : Nat) (st : IState), stGood h st →
      stGood h (allLoop h eid children i st).1 := by
  intro children
  induction children with
  | nil => intro i st hst; exact hst
  | cons child rest ih =>
    intro i st hst
    cases child with
    | exec nm inp op =>
      rw [allLoop]
      all_goals try (intro a b c hcon; cases hcon)
      all_goals try (intro a b hcon; cases hcon)
      all_goals try (intro a hcon; cases hcon)
      try dsimp only
      apply ih
      rcases hs : slotOf h (eid ++ "." ++ toString i) (.exec nm inp op) with _ | tid | v | _
      · exact pushCmd_good hst (cmdFresh_execCmd _ _ _ _ (slotOf_exec_pending hs))
      · exact hst
      · exact hst
      · exact hst
    | sleep secs u =>
      rw [allLoop]
      all_goals try (intro a b c hcon; cases hcon)
      all_goals try (intro a b hcon; cases hcon)
      all_goals try (intro a hcon; cases hcon)
      try dsimp only
      apply ih
      rcases hs : slotOf h (eid ++ "." ++ toString i) (.sleep secs u) with _ | tid | v | _
      · exact pushCmd_good hst (cmdFresh_sleepCmd _ _ (slotOf_sleep_pending hs))
      · exact hst
      · exact hst
      · exact hst
    | signal n =>
      rw [allLoop]
      all_goals try (intro a b c hcon; cases hcon)
      all_goals try (intro a b hcon; cases hcon)
      all_goals try (intro a hcon; cases hcon)
      try dsimp only
      exact ih _ _ hst
    | all cs =>
      rw [allLoop]
      all_goals try (intro a b c hcon; cases hcon)
      all_goals try (intro a b hcon; cases hcon)
      all_goals try (intro a hcon; cases hcon)
      try dsimp only
      exact ih _ _ hst
    | race os =>
      rw [allLoop]
      all_goals try (intro a b c hcon; cases hcon)
      all_goals try (intro a b hcon; cases hcon)
      all_goals try (intro a hcon; cases hcon)
      try dsimp only
      exact ih _ _ hst
    | set k v =>
      rw [allLoop]
      all_goals try (intro a b c hcon; cases hcon)
      all_goals try (intro a b hcon; cases hcon)
      all_goals try (intro a hcon; cases hcon)
      try dsimp only
      exact ih _ _ hst
    | complete v =>
      rw [allLoop]
      all_goals try (intro a b c hcon; cases hcon)
      all_goals try (intro a b hcon; cases hcon)
      all_goals try (intro a hcon; cases hcon)
      try dsimp only
      exact ih _ _ hst
    | fail r =>
      rw [allLoop]
      all_goals try (intro a b c hcon; cases hcon)
      all_goals try (intro a b hcon; cases hcon)
      all_goals try (intro a hcon; cases hcon)
      try dsimp only
      exact ih _ _ hst

theorem raceChildLoop_good {h : HistIndex} {eid : String} :
    ∀ (options : List (String × Effect)) (st : IState) (kbt : List (String × String))
      (sw : Option SigCand), stGood h st →
      stGood h (raceChildLoop h eid options st kbt sw).1 := by
  intro options
  induction options with
  | nil => intro st kbt sw hst; exact hst
  | cons p rest ih =>
    rcases p with ⟨key, child⟩
    intro st kbt sw hst
    cases child with
    | exec nm inp op =>
      rw [raceChildLoop]
      all_goals try (intro a b c hcon; cases hcon)
      all_goals try (intro a b hcon; cases hcon)
      all_goals try (intro a hcon; cases hcon)
      try dsimp only
      apply ih
      rcases hs : slotOf h (eid ++ "." ++ key) (.exec nm inp op) with _ | tid | v | _
      · exact pushCmd_good hst (cmdFresh_execCmd _ _ _ _ (slotOf_exec_pending hs))
      · exact hst
      · exact hst
      · exact hst
    | sleep secs u =>
      rw [raceChildLoop]
      all_goals try (intro a b c hcon; cases hcon)
      all_goals try (intro a b hcon; cases hcon)
      all_goals try (intro a hcon; cases hcon)
      try dsimp only
      apply ih
      rcases hs : slotOf h (eid ++ "." ++ key) (.sleep secs u) with _ | tid | v | _
      · exact pushCmd_good hst (cmdFresh_sleepCmd _ _ (slotOf_sleep_pending hs))
      · exact hst
      · exact hst
      · exact hst
    | signal n =>
      rw [raceChildLoop]
      all_goals try (intro a b c hcon; cases hcon)
      all_goals try (intro a b hcon; cases hcon)
      all_goals try (intro a hcon; cases hcon)
      try dsimp only
      exact ih _ _ _ hst
    | all cs =>
      rw [raceChildLoop]
      all_goals try (intro a b c hcon; cases hcon)
      all_goals try (intro a b hcon; cases hcon)
      all_goals try (intro a hcon; cases hcon)
      try dsimp only
      exact ih _ _ _ hst
    | race os =>
      rw [raceChildLoop]
      all_goals try (intro a b c hcon; cases hcon)
      all_goals try (intro a b hcon; cases hcon)
      all_goals try (intro a hcon; cases hcon)
      try dsimp only
      exact ih _ _ _ hst
    | set k v =>
      rw [raceChildLoop]
      all_goals try (intro a b c hcon; cases hcon)
      all_goals try (intro a b hcon; cases hcon)
      all_goals try (intro a hcon; cases hcon)
      try dsimp only
      exact ih _ _ _ hst
    | complete v =>
      rw [raceChildLoop]
      all_goals try (intro a b c hcon; cases hcon)
      all_goals try (intro a b hcon; cases hcon)
      all_goals try (intro a hcon; cases hcon)
      try dsimp only
      exact ih _ _ _ hst
    | fail r =>
      rw [raceChildLoop]
      all_goals try (intro a b c hcon; cases hcon)
      all_goals try (intro a b hcon; cases hcon)
      all_goals try (intro a hcon; cases hcon)
      try dsimp only
      exact ih _ _ _ hst

/-- State component of a step outcome. -/
def StepOut.state : StepOut → IState
  | .cont st _ => st
  | .stop st => st

theorem interpStep_good {h : HistIndex} {st : IState} {eid : String} {eff : Effect}
    {out : StepOut} (hst : stGood h st) (hstep : interpStep h st eid eff = some out) :
    stGood h out.state := by
  cases eff with
  | exec nm inp op =>
    simp only [interpStep] at hstep
    rcases hs : slotOf h eid (.exec nm inp op) with _ | tid | v | _
    · rw [hs] at hstep
      injection hstep with hstep
      rw [← hstep]
      exact pushCmd_good hst (cmdFresh_execCmd _ _ _ _ (slotOf_exec_pending hs))
    · rw [hs] at hstep; injection hstep with hstep; rw [← hstep]; exact hst
    · rw [hs] at hstep; injection hstep with hstep; rw [← hstep]; exact hst
    · rw [hs] at hstep; injection hstep with hstep; rw [← hstep]; exact hst
  | sleep secs u =>
    simp only [interpStep] at hstep
    rcases hs : slotOf h eid (.sleep secs u) with _ | tid | v | _
    · rw [hs] at hstep
      injection hstep with hstep
      rw [← hstep]
      exact pushCmd_good hst (cmdFresh_sleepCmd _ _ (slotOf_sleep_pending hs))
    · rw [hs] at hstep; injection hstep with hstep; rw [← hstep]; exact hst
    · rw [hs] at hstep; injection hstep with hstep; rw [← hstep]; exact hst
    · rw [hs] at hstep; injection hstep with hstep; rw [← hstep]; exact hst
  | signal name =>
    simp only [interpStep] at hstep
    rcases hq : ((h.signalsByName.lookup name).getD [])[(st.sigCount.lookup name).getD 0]?
        with _ | pr
    · rw [hq] at hstep; injection hstep with hstep; rw [← hstep]; exact hst
    · rw [hq] at hstep
      rcases Option.map_eq_some'.mp hstep with ⟨st', hsi, hfo⟩
      rw [← hfo]
      exact setInternal_good hst hsi
  | set k v =>
    simp only [interpStep] at hstep
    rcases Option.map_eq_some'.mp hstep with ⟨st', hsi, hfo⟩
    rw [← hfo]
    exact setInternal_good hst hsi
  | complete value =>
    simp only [interpStep] at hstep
    rcases value with _ | v
    · injection hstep with hstep
      rw [← hstep]
      exact pushCmd_good hst trivial
    · rcases Option.map_eq_some'.mp hstep with ⟨st', hsi, hfo⟩
      rw [← hfo]
      exact pushCmd_good (setInternal_good hst hsi) trivial
  | fail r =>
    simp only [interpStep] at hstep
    injection hstep with hstep
    rw [← hstep]
    exact pushCmd_good hst trivial
  | all children =>
    simp only [interpStep] at hstep
    split at hstep
    · injection hstep with hstep
      rw [← hstep]
      exact allLoop_good children 0 st hst
    · injection hstep with hstep
      rw [← hstep]
      exact allLoop_good children 0 st hst
  | race options =>
    simp only [interpStep] at hstep
    rcases hr : raceChildLoop h eid options st [] none with ⟨st1, kbt, sw⟩
    have h1 : stGood h st1 := by
      have hgl := @raceChildLoop_good h eid options st [] none hst
      rw [hr] at hgl
      exact hgl
    rw [hr] at hstep
    dsimp only at hstep
    rcases sw with _ | w
    · rcases hw : raceWinner h eid options kbt h.raceOrder with _ | pr
      · rw [hw] at hstep; injection hstep with hstep; rw [← hstep]; exact h1
      · rw [hw] at hstep
        rcases pr with ⟨key, v⟩
        injection hstep with hstep
        rw [← hstep]
        exact h1
    · rcases Option.map_eq_some'.mp hstep with ⟨st2, hsi, hfo⟩
      rw [← hfo]
      exact setInternal_good h1 hsi

theorem interpRun_good {h : HistIndex} : ∀ (g : GenM) (st stF : IState),
    stGood h st → interpRun h g st = some stF → stGood h stF := by
  intro g
  induction g with
  | ret =>
    intro st stF hst hrun
    simp only [interpRun] at hrun
    injection hrun with hrun
    rw [← hrun]
    refine ⟨hst.1, ?_⟩
    intro c hc
    rcases List.mem_append.mp hc with hc | hc
    · exact hst.2 c hc
    · rw [List.mem_singleton.mp hc]
      trivial
  | yld eff k ih =>
    intro st stF hst hrun
    simp only [interpRun] at hrun
    rcases hset : IState.setInternal { st with cursor := st.cursor + 1 } "$wf.cursor"
        (.num (st.cursor + 1 : Nat)) with _ | st1
    · rw [hset] at hrun; cases hrun
    · rw [hset] at hrun
      dsimp only at hrun
      have h1 : stGood h st1 := setInternal_good
        (show stGood h { st with cursor := st.cursor + 1 } from ⟨hst.1, hst.2⟩) hset
      rcases hstep : interpStep h st1 (toString (st.cursor + 1)) eff with _ | out
      · rw [hstep] at hrun; cases hrun
      · rw [hstep] at hrun
        have h2 : stGood h out.state := interpStep_good h1 hstep
        cases out with
        | cont st2 input => exact ih input st2 stF h2 hrun
        | stop st2 =>
          injection hrun with hrun
          rw [← hrun]
          exact h2

/-- Claim C6: the decider produced from a generator is a pure function of
(ctx, history) — two invocations on the same arguments are equal — and
every command it emits is either a set command, a terminal command, or an
exec/sleep command whose effect id has no ACTIVITY_SCHEDULED or
TIMER_SCHEDULED correlation already recorded in history, so re-running on
an unchanged history never duplicates a scheduled effect. -/
theorem interpret_deterministic_no_dup (gen : Value → GenM) (ctx : Value)
    (history : List WFEvent) :
    (defineWorkflow gen ctx history = defineWorkflow gen ctx history) ∧
    (∀ cmds, interpret gen ctx history = some cmds →
      ∀ c ∈ cmds, cmdFresh (indexHistory history) c) := by
  refine ⟨rfl, ?_⟩
  intro cmds h c hc
  simp only [interpret] at h
  rcases Option.map_eq_some'.mp h with ⟨stF, hrun, hcmds⟩
  have hst0 : stGood (indexHistory history)
      ⟨0, ctx, (initSigCount ctx).1, (initSigCount ctx).2,
       (if (match ctx.lookup "$wf" with | some w => w.truthy | none => false) then []
        else [Command.set "$wf" (Value.obj [("cursor", .num 0), ("sigCount", .obj [])])]),
       []⟩ := by
    constructor
    · intro c' hc'
      dsimp only at hc'
      split at hc'
      · cases hc'
      · rw [List.mem_singleton.mp hc']
        trivial
    · intro c' hc'
      cases hc'
  have hgood := interpRun_good _ _ _ hst0 hrun
  rw [← hcmds] at hc
  rcases List.mem_append.mp hc with hc | hc
  · exact isSetCmd_fresh (hgood.1 c hc)
  · exact hgood.2 c hc

/-- Generator of the C6 witness: a single exec effect. -/
def c6Gen : Value → GenM := fun _ => .yld (.exec "work" .null none) (fun _ => .ret)

/-- Commands emitted by the C6 witness generator on a fresh context and
empty history. -/
def c6Cmds : List Command :=
  [Command.set "$wf" (.obj [("cursor", .num 0), ("sigCount", .obj [])]),
   Command.set "$wf.cursor" (.num 1),
   Command.exec (some "E:1") (execCode "work" .null) none none none none]

/-- Claim C6 witness: the exec command emitted on an empty history carries
effect id 1, which has no scheduled correlation in that history. -/
theorem interpret_deterministic_no_dup_witness :
    cmdFresh (indexHistory [])
      (Command.exec (some "E:1") (execCode "work" .null) none none none none) :=
  (interpret_deterministic_no_dup c6Gen (.obj []) []).2 c6Cmds rfl
    (Command.exec (some "E:1") (execCode "work" .null) none none none none)
    (List.mem_cons_of_mem _ (List.mem_cons_of_mem _ (List.mem_cons_self _ _)))

/-! Claim C7: race signal preference. -/

/-- Unconsumed-signal candidates of a race against a sigCount snapshot, in
option order: for each signal child whose name has more recorded signals
than consumed, the key, name, payload and timestamp of the first
unconsumed one. -/
def raceSigCandidates (h : HistIndex) (sc : List (String × Nat)) :
    List (String × Effect) → List SigCand
  | [] => []
  | (key, child) :: rest =>
    (match child with
     | .signal name =>
       match ((h.signalsByName.lookup name).getD [])[(sc.lookup name).getD 0]? with
       | some (ts, payload) => [⟨key, name, payload, ts⟩]
       | none => []
     | _ => []) ++ raceSigCandidates h sc rest

theorem raceSigStep {h : HistIndex} {eid : String} {rest : List (String × Effect)}
    (hrest : ∀ (st : IState) (kbt : List (String × String)) (sw : Option SigCand),
      (∀ w0, (raceChildLoop h eid rest st kbt sw).2.2 = some w0 →
        (w0 ∈ raceSigCandidates h st.sigCount rest ∨ sw = some w0) ∧
        (∀ c ∈ raceSigCandidates h st.sigCount rest, w0.ts ≤ c.ts) ∧
        (∀ w1, sw = some w1 → w0.ts ≤ w1.ts)) ∧
      ((raceSigCandidates h st.sigCount rest ≠ [] ∨ sw.isSome = true) →
        ((raceChildLoop h eid rest st kbt sw).2.2).isSome = true))
    (st st1 : IState) (kbt1 : List (String × String)) (sw : Option SigCand)
    (hsig : st1.sigCount = st.sigCount) :
    (∀ w0, (raceChildLoop h eid rest st1 kbt1 sw).2.2 = some w0 →
      (w0 ∈ [] ++ raceSigCandidates h st.sigCount rest ∨ sw = some w0) ∧
      (∀ c ∈ [] ++ raceSigCandidates h st.sigCount rest, w0.ts ≤ c.ts) ∧
      (∀ w1, sw = some w1 → w0.ts ≤ w1.ts)) ∧
    (([] ++ raceSigCandidates h st.sigCount rest ≠ [] ∨ sw.isSome = true) →
      ((raceChildLoop h eid rest st1 kbt1 sw).2.2).isSome = true) := by
  rcases hrest st1 kbt1 sw with ⟨ih1, ih2⟩
  rw [hsig] at ih1 ih2
  exact ⟨fun w0 hw => ih1 w0 hw,
         fun hne => ih2 (hne.imp (fun hx => hx) (fun hx => hx))⟩

theorem raceChildLoop_sigWinner {h : HistIndex} {eid : String} :
    ∀ (options : List (String × Effect)) (st : IState) (kbt : List (String × String))
      (sw : Option SigCand),
      (∀ w0, (raceChildLoop h eid options st kbt sw).2.2 = some w0 →
        (w0 ∈ raceSigCandidates h st.sigCount options ∨ sw = some w0) ∧
        (∀ c ∈ raceSigCandidates h st.sigCount options, w0.ts ≤ c.ts) ∧
        (∀ w1, sw = some w1 → w0.ts ≤ w1.ts)) ∧
      ((raceSigCandidates h st.sigCount options ≠ [] ∨ sw.isSome = true) →
        ((raceChildLoop h eid options st kbt sw).2.2).isSome = true) := by
  intro options
  induction options with
  | nil =>
    intro st kbt sw
    constructor
    · intro w0 hw
      have hw' : sw = some w0 := hw
      refine ⟨Or.inr hw', ?_, ?_⟩
      · intro c hc; cases hc
      · intro w1 h1
        rw [hw'] at h1
        injection h1 with h1
        exact le_of_eq (by rw [h1])
    · intro hne
      rcases hne with hne | hsw
      · exact absurd rfl hne
      · exact hsw
  | cons p rest ih =>
    rcases p with ⟨key, child⟩
    intro st kbt sw
    cases child with
    | signal n =>
      have hs : slotOf h (eid ++ "." ++ key) (.signal n) = .na := rfl
      rw [raceChildLoop]
      all_goals try (intro a b c hcon; cases hcon)
      all_goals try (intro a b hcon; cases hcon)
      all_goals try (intro a hcon; cases hcon)
      try dsimp only
      rw [hs]
      rw [raceSigCandidates]
      all_goals try (intro a b c hcon; cases hcon)
      all_goals try (intro a b hcon; cases hcon)
      all_goals try (intro a hcon; cases hcon)
      try dsimp only
      rcases hq : ((h.signalsByName.lookup n).getD [])[(st.sigCount.lookup n).getD 0]? with _ | pr
      · try dsimp only
        exact raceSigStep ih st _ _ sw rfl
      · rcases pr with ⟨ts, payload⟩
        try dsimp only
        rcases sw with _ | w
        · try dsimp only
          rcases ih st kbt (some ⟨key, n, payload, ts⟩) with ⟨ih1, ih2⟩
          constructor
          · intro w0 hw
            rcases ih1 w0 hw with ⟨hmem, hmin, hswle⟩
            refine ⟨?_, ?_, ?_⟩
            · rcases hmem with hmem | hmem
              · exact Or.inl (List.mem_cons_of_mem _ hmem)
              · injection hmem with hmem
                exact Or.inl (by rw [← hmem]; exact List.mem_cons_self _ _)
            · intro c hc
              rcases List.mem_cons.mp hc with rfl | hc
              · exact hswle _ rfl
              · exact hmin c hc
            · intro w1 h1
              cases h1
          · exact fun hx => ih2 (Or.inr rfl)
        · try dsimp only
          by_cases hlt : ts < w.ts
          · rw [if_pos hlt]
            rcases ih st kbt (some ⟨key, n, payload, ts⟩) with ⟨ih1, ih2⟩
            constructor
            · intro w0 hw
              rcases ih1 w0 hw with ⟨hmem, hmin, hswle⟩
              refine ⟨?_, ?_, ?_⟩
              · rcases hmem with hmem | hmem
                · exact Or.inl (List.mem_cons_of_mem _ hmem)
                · injection hmem with hmem
                  exact Or.inl (by rw [← hmem]; exact List.mem_cons_self _ _)
              · intro c hc
                rcases List.mem_cons.mp hc with rfl | hc
                · exact hswle _ rfl
                · exact hmin c hc
              · intro w1 h1
                injection h1 with h1
                have hle : w0.ts ≤ ts := hswle _ rfl
                rw [← h1]
                omega
            · exact fun hx => ih2 (Or.inr rfl)
          · rw [if_neg hlt]
            rcases ih st kbt (some w) with ⟨ih1, ih2⟩
            constructor
            · intro w0 hw
              rcases ih1 w0 hw with ⟨hmem, hmin, hswle⟩
              refine ⟨?_, ?_, ?_⟩
              · rcases hmem with hmem | hmem
                · exact Or.inl (List.mem_cons_of_mem _ hmem)
                · exact Or.inr hmem
              · intro c hc
                rcases List.mem_cons.mp hc with rfl | hc
                · have hw0 : w0.ts ≤ w.ts := hswle _ rfl
                  have hwt : w.ts ≤ ts := Nat.le_of_not_lt hlt
                  exact le_trans hw0 hwt
                · exact hmin c hc
              · intro w1 h1
                injection h1 with h1
                rw [← h1]
                exact hswle _ rfl
            · exact fun hx => ih2 (Or.inr rfl)
    | exec nm inp op =>
      rw [raceChildLoop]
      all_goals try (intro a b c hcon; cases hcon)
      all_goals try (intro a b hcon; cases hcon)
      all_goals try (intro a hcon; cases hcon)
      rw [raceSigCandidates]
      all_goals try (intro a b c hcon; cases hcon)
      all_goals try (intro a b hcon; cases hcon)
      all_goals try (intro a hcon; cases hcon)
      try dsimp only
      rcases hs : slotOf h (eid ++ "." ++ key) (.exec nm inp op) with _ | tid | v | _ <;>
        exact raceSigStep ih st _ _ sw rfl
    | sleep secs u =>
      rw [raceChildLoop]
      all_goals try (intro a b c hcon; cases hcon)
      all_goals try (intro a b hcon; cases hcon)
      all_goals try (intro a hcon; cases hcon)
      rw [raceSigCandidates]
      all_goals try (intro a b c hcon; cases hcon)
      all_goals try (intro a b hcon; cases hcon)
      all_goals try (intro a hcon; cases hcon)
      try dsimp only
      rcases hs : slotOf h (eid ++ "." ++ key) (.sleep secs u) with _ | tid | v | _ <;>
        exact raceSigStep ih st _ _ sw rfl
    | all cs =>
      have hs : slotOf h (eid ++ "." ++ key) (.all cs) = .na := rfl
      rw [raceChildLoop]
      all_goals try (intro a b c hcon; cases hcon)
      all_goals try (intro a b hcon; cases hcon)
      all_goals try (intro a hcon; cases hcon)
      try dsimp only
      rw [hs]
      rw [raceSigCandidates]
      all_goals try (intro a b c hcon; cases hcon)
      all_goals try (intro a b hcon; cases hcon)
      all_goals try (intro a hcon; cases hcon)
      try dsimp only
      exact raceSigStep ih st _ _ sw rfl
    | race os =>
      have hs : slotOf h (eid ++ "." ++ key) (.race os) = .na := rfl
      rw [raceChildLoop]
      all_goals try (intro a b c hcon; cases hcon)
      all_goals try (intro a b hcon; cases hcon)
      all_goals try (intro a hcon; cases hcon)
      try dsimp only
      rw [hs]
      rw [raceSigCandidates]
      all_goals try (intro a b c hcon; cases hcon)
      all_goals try (intro a b hcon; cases hcon)
      all_goals try (intro a hcon; cases hcon)
      try dsimp only
      exact raceSigStep ih st _ _ sw rfl
    | set k v =>
      have hs : slotOf h (eid ++ "." ++ key) (.set k v) = .na := rfl
      rw [raceChildLoop]
      all_goals try (intro a b c hcon; cases hcon)
      all_goals try (intro a b hcon; cases hcon)
      all_goals try (intro a hcon; cases hcon)
      try dsimp only
      rw [hs]
      rw [raceSigCandidates]
      all_goals try (intro a b c hcon; cases hcon)
      all_goals try (intro a b hcon; cases hcon)
      all_goals try (intro a hcon; cases hcon)
      try dsimp only
      exact raceSigStep ih st _ _ sw rfl
    | complete v =>
      have hs : slotOf h (eid ++ "." ++ key) (.complete v) = .na := rfl
      rw [raceChildLoop]
      all_goals try (intro a b c hcon; cases hcon)
      all_goals try (intro a b hcon; cases hcon)
      all_goals try (intro a hcon; cases hcon)
      try dsimp only
      rw [hs]
      rw [raceSigCandidates]
      all_goals try (intro a b c hcon; cases hcon)
      all_goals try (intro a b hcon; cases hcon)
      all_goals try (intro a hcon; cases hcon)
      try dsimp only
      exact raceSigStep ih st _ _ sw rfl
    | fail r =>
      have hs : slotOf h (eid ++ "." ++ key) (.fail r) = .na := rfl
      rw [raceChildLoop]
      all_goals try (intro a b c hcon; cases hcon)
      all_goals try (intro a b hcon; cases hcon)
      all_goals try (intro a hcon; cases hcon)
      try dsimp only
      rw [hs]
      rw [raceSigCandidates]
      all_goals try (intro a b c hcon; cases hcon)
      all_goals try (intro a b hcon; cases hcon)
      all_goals try (intro a hcon; cases hcon)
      try dsimp only
      exact raceSigStep ih st _ _ sw rfl

/-- Claim C7: when a race has at least one signal child with an unconsumed
signal in history, the interpreter picks a signal winner (in preference to
any completed exec/sleep child): the winner is an unconsumed-signal
candidate of minimal timestamp, its sigCount entry is advanced by one via
the staged set write, and the generator is resumed with the key/payload
object of the winning child. -/
theorem race_signal_preference (h : HistIndex) (st : IState) (eid : String)
    (options : List (String × Effect)) :
    (raceSigCandidates h st.sigCount options ≠ [] →
      ∃ w, (raceChildLoop h eid options st [] none).2.2 = some w) ∧
    (∀ w, (raceChildLoop h eid options st [] none).2.2 = some w →
      w ∈ raceSigCandidates h st.sigCount options ∧
      (∀ c ∈ raceSigCandidates h st.sigCount options, w.ts ≤ c.ts) ∧
      interpStep h st eid (.race options) =
        ((raceChildLoop h eid options st [] none).1.setInternal
            ("$wf.sigCount." ++ w.name)
            (.num (((raceChildLoop h eid options st [] none).1.sigCount.lookup w.name).getD 0 + 1 : Nat))).map
          (fun st2 => StepOut.cont st2 (Value.obj [("key", .str w.key), ("value", w.value)]))) := by
  rcases raceChildLoop_sigWinner options st [] none with ⟨h1, h2⟩
  constructor
  · intro hne
    exact Option.isSome_iff_exists.mp (h2 (Or.inl hne))
  · intro w hw
    rcases h1 w hw with ⟨hmem, hmin, _⟩
    refine ⟨?_, hmin, ?_⟩
    · rcases hmem with hmem | hmem
      · exact hmem
      · cases hmem
    · simp only [interpStep]
      rw [hw]

/-- History and race options of the C7 witness: one signal S recorded at
time 5, raced against a slow exec. -/
def c7Hist : List WFEvent := [WFEvent.signal 5 "S" (.str "p")]

/-- Race options of the C7 witness. -/
def c7Options : List (String × Effect) :=
  [("sig", .signal "S"), ("slow", .exec "slow" .null none)]

/-- Interpreter state of the C7 witness. -/
def c7St : IState := ⟨1, .obj [], [], false, [], []⟩

/-- Claim C7 witness: with the concrete signal in history the race picks a
signal winner, and the candidate derived from the signal at time 5 is an
unconsumed-signal candidate with minimal timestamp. -/
theorem race_signal_preference_witness :
    (∃ w, (raceChildLoop (indexHistory c7Hist) "1" c7Options c7St [] none).2.2 = some w) ∧
    (⟨"sig", "S", .str "p", 5⟩ : SigCand) ∈
      raceSigCandidates (indexHistory c7Hist) c7St.sigCount c7Options ∧
    (∀ c ∈ raceSigCandidates (indexHistory c7Hist) c7St.sigCount c7Options,
      (5 : Nat) ≤ c.ts) := by
  have h2 := (race_signal_preference (indexHistory c7Hist) c7St "1" c7Options).2
    ⟨"sig", "S", .str "p", 5⟩ (by with_unfolding_all rfl)
  refine ⟨(race_signal_preference (indexHistory c7Hist) c7St "1" c7Options).1 ?_, h2.1, h2.2.1⟩
  intro hc
  rw [show raceSigCandidates (indexHistory c7Hist) c7St.sigCount c7Options =
    [⟨"sig", "S", .str "p", 5⟩] from by with_unfolding_all rfl] at hc
  cases hc

end Hobo
